import Mathlib

/-!
Verification of the core algorithms of the `hatchet` repository: the
recursive markup parser (`src/helpers/html.ts`), the attachment/media
extractor (`src/helpers/image.ts`) and the color/theme helpers
(`theme.ts`).  JS strings are modelled as `List Char`; JS regular
expressions are modelled by hand-rolled deterministic scanners (for the
anchored tag regex and the attribute regexes, whose character classes make
matching deterministic) and by a small greedy-backtracking matcher (for
the image/attachment scan regexes).  All recursion is structural on an
explicit fuel argument so that every definition evaluates inside the
kernel; the fuel-sufficiency theorems are exactly the termination
guarantees claimed by the specification.
-/

namespace Hatchet

set_option maxRecDepth 8000

/-- Convert a Lean string literal to the `List Char` representation used
throughout this development. -/
def str (s : String) : List Char := s.data

/-- ASCII lower-casing of one character, modelling JS `toLowerCase` /
case-insensitive regex matching on the ASCII range used by the markup
dialect. -/
def toLowerChar (c : Char) : Char :=
  if 65 ≤ c.toNat ∧ c.toNat ≤ 90 then Char.ofNat (c.toNat + 32) else c

/-- Lower-case a whole string. -/
def lower (s : List Char) : List Char := s.map toLowerChar

/-- The class of the JS regex `\s` / `String.trim` restricted to the ASCII
range (space, tab, newline, carriage return, vertical tab, form feed); the
decoded markup only contains ASCII whitespace since `&nbsp;` is decoded to
a plain space by the source. -/
def isSpace (c : Char) : Bool :=
  c == ' ' || c == '\t' || c == '\n' || c == '\r' || c.toNat == 11 || c.toNat == 12

/-- The class of the JS regex `[\w-]` (word characters and dash), used for
tag names. -/
def isWordChar (c : Char) : Bool :=
  decide ((48 ≤ c.toNat ∧ c.toNat ≤ 57) ∨ (65 ≤ c.toNat ∧ c.toNat ≤ 90) ∨
    (97 ≤ c.toNat ∧ c.toNat ≤ 122) ∨ c = '_' ∨ c = '-')

/-- Strip `p` from the front of `s`, if it is a prefix. -/
def stripPre (p s : List Char) : Option (List Char) :=
  if p.isPrefixOf s then some (s.drop p.length) else none

/-- One global replacement pass, modelling JS `s.replace(/pat/g, rep)` for a
literal pattern: scan left to right, replace each non-overlapping
occurrence, never rescanning the replacement.  The fuel is the length of
the subject string, which suffices because every step consumes at least one
character of the input (all patterns used are non-empty). -/
def replaceGo (pat rep : List Char) : Nat → List Char → List Char
  | _, [] => []
  | 0, s => s
  | fuel + 1, c :: cs =>
    if pat.isPrefixOf (c :: cs) && !pat.isEmpty then
      rep ++ replaceGo pat rep fuel ((c :: cs).drop pat.length)
    else c :: replaceGo pat rep fuel cs

/-- JS `s.replace(/pat/g, rep)` for a literal non-empty pattern. -/
def replaceAll (pat rep s : List Char) : List Char := replaceGo pat rep s.length s

/-- `decodeHtmlEntities` (html.ts lines 5-13): six sequential global
replacements, in source order. -/
def decodeHtmlEntities (s : List Char) : List Char :=
  replaceAll (str "&nbsp;") (str " ")
    (replaceAll (str "&#39;") [Char.ofNat 39]
      (replaceAll (str "&quot;") [Char.ofNat 34]
        (replaceAll (str "&amp;") (str "&")
          (replaceAll (str "&gt;") (str ">")
            (replaceAll (str "&lt;") (str "<") s)))))

/-- Collapse every maximal whitespace run to a single space, modelling JS
`text.replace(/\s+/g, " ")`.  The boolean records whether the previous
character was whitespace. -/
def collapseWsGo : Bool → List Char → List Char
  | _, [] => []
  | prev, c :: cs =>
    if isSpace c then
      (if prev then collapseWsGo true cs else ' ' :: collapseWsGo true cs)
    else c :: collapseWsGo false cs

/-- `text.replace(/\s+/g, " ")`. -/
def collapseWs (s : List Char) : List Char := collapseWsGo false s

/-- Decimal digit character. -/
def digitChar (n : Nat) : Char := Char.ofNat (48 + n)

/-- Decimal rendering of a natural number (fuel-based division loop). -/
def natDigs : Nat → Nat → List Char
  | 0, _ => []
  | fuel + 1, n =>
    if n < 10 then [digitChar n] else natDigs fuel (n / 10) ++ [digitChar (n % 10)]

/-- JS template interpolation of a number, `${counter}`. -/
def natToChars (n : Nat) : List Char := natDigs (n + 1) n

/-- Does `needle` occur as a contiguous substring of `hay`?  Models JS
`String.prototype.includes`. -/
def containsSub : List Char → List Char → Bool
  | s, needle =>
    if needle.isPrefixOf s then true
    else match s with
      | [] => false
      | _ :: t => containsSub t needle

/-- The two JS quote characters `"` and `'`, the character class `["']` of
the attribute regexes. -/
def quoteChars : List Char := [Char.ofNat 34, Char.ofNat 39]

/-- Try to match `key["']([^"']+)["']` at the very start of `s`, returning
the captured value.  The character classes make the regex deterministic
(the greedy `[^"']+` cannot consume the closing quote), so no backtracking
is needed. -/
def matchAttrAt (key s : List Char) : Option (List Char) :=
  match stripPre key s with
  | none => none
  | some r1 =>
    match r1 with
    | [] => none
    | q :: r2 =>
      if quoteChars.contains q then
        let v := r2.takeWhile (fun c => !(quoteChars.contains c))
        if v.length > 0 && !(r2.drop v.length).isEmpty then some v else none
      else none

/-- First (leftmost) match of `key["']([^"']+)["']` anywhere in `s`,
modelling `s.match(/key=["']([^"']+)["']/)` with the captured group
returned. -/
def firstAttr (key : List Char) : List Char → Option (List Char)
  | [] => none
  | c :: t =>
    match matchAttrAt key (c :: t) with
    | some v => some v
    | none => firstAttr key t

/-- `extractHref` (html.ts lines 39-42): first match of
`href=["']([^"']+)["']` in the attribute text. -/
def extractHref (attrs : List Char) : Option (List Char) :=
  firstAttr (str "href=") attrs

/-- The result of the anchored tag regex
`^([^<]*)<(\/?)([\w-]+)([^>]*)>` of html.ts line 56: the text before the
tag, whether the tag is closing, the raw tag name, the attribute text, and
the total length of the match. -/
structure TagMatch where
  pre : List Char
  closing : Bool
  name : List Char
  attrs : List Char
  len : Nat
deriving DecidableEq

/-- Matching `([\w-]+)([^>]*)>` at the start of `after2`: a non-empty run
of word characters (the tag name), then everything up to the first `>`
(the attributes), then the `>` itself, which must exist. -/
def nameAttrsMatch (after2 : List Char) : Option (List Char × List Char) :=
  let name := after2.takeWhile isWordChar
  if name.isEmpty then none
  else
    let afterName := after2.drop name.length
    let attrs := afterName.takeWhile (fun c => c != '>')
    if (afterName.drop attrs.length).isEmpty then none
    else some (name, attrs)

/-- Matching the anchored regex `^([^<]*)<(\/?)([\w-]+)([^>]*)>` against
`s`.  Because `[^<]*` cannot contain `<`, the `<` of a successful match is
the first `<` of `s`; because `[^>]*` cannot contain `>`, the final `>` is
the first `>` after the tag name; if any required piece is missing the
whole match fails (backtracking cannot recover, since the classes exclude
exactly the required delimiters).  The optional slash of `(\/?)` is taken
exactly when the character after `<` is `/` (a slash is not a word
character, so this agrees with the regex). -/
def tagMatch (s : List Char) : Option TagMatch :=
  let pre := s.takeWhile (fun c => c != '<')
  match s.drop pre.length with
  | [] => none
  | _ :: '/' :: after2 =>
    (nameAttrsMatch after2).map fun r =>
      ⟨pre, true, r.1, r.2, pre.length + 2 + (r.1.length + r.2.length + 1)⟩
  | _ :: after2 =>
    (nameAttrsMatch after2).map fun r =>
      ⟨pre, false, r.1, r.2, pre.length + 1 + (r.1.length + r.2.length + 1)⟩

/-- Index of the first occurrence of `needle` in the suffix `s`, where `i`
is the absolute index of the head of `s`. -/
def indexOfAux (needle : List Char) : List Char → Nat → Option Nat
  | [], i => if needle.isEmpty then some i else none
  | c :: t, i =>
    if needle.isPrefixOf (c :: t) then some i else indexOfAux needle t (i + 1)

/-- JS `hay.indexOf(needle, start)` (for `start ≤ hay.length`). -/
def indexOfFrom (hay needle : List Char) (start : Nat) : Option Nat :=
  indexOfAux needle (hay.drop start) start

/-- Length of a match of the open-tag regex `<name[^>]*>` at the start of
`s` (both already lower-cased).  Note that the regex only requires `name`
to be a prefix of the actual tag name: `<br>` matches `<b[^>]*>`. -/
def openMatchLen (lname : List Char) (s : List Char) : Option Nat :=
  match s with
  | '<' :: rest =>
    if lname.isPrefixOf rest then
      let afterName := rest.drop lname.length
      let attrs := afterName.takeWhile (fun c => c != '>')
      if (afterName.drop attrs.length).isEmpty then none
      else some (1 + lname.length + attrs.length + 1)
    else none
  | _ => none

/-- Number of matches of `<name[^>]*>` in `s`, modelling
`segment.match(openTag).length` with the global flag: scan left to right,
skip past each match, otherwise advance one character.  Fuel
`s.length` suffices since every step consumes at least one character. -/
def countOpens (lname : List Char) : Nat → List Char → Nat
  | 0, _ => 0
  | _ + 1, [] => 0
  | fuel + 1, c :: t =>
    match openMatchLen lname (c :: t) with
    | some k => 1 + countOpens lname fuel ((c :: t).drop k)
    | none => countOpens lname fuel t

/-- The loop of `findMatchingClose` (html.ts lines 249-262) on the
lower-cased subject.  `none` means the fuel ran out (shown impossible
below); `some none` models the `-1` return.  Each iteration jumps to the
next occurrence of the closing tag, adds the number of open-tag matches in
the skipped segment to the depth and subtracts one for the candidate
close. -/
def fmcGo (lname close lowH : List Char) : Nat → Nat → Nat → Option (Option Nat)
  | 0, _, _ => none
  | fuel + 1, pos, depth =>
    if depth > 0 ∧ pos < lowH.length then
      match indexOfFrom lowH close pos with
      | none => some none
      | some nextClose =>
        let seg := (lowH.drop pos).take (nextClose - pos)
        let opens := countOpens lname seg.length seg
        let d := depth + opens - 1
        if d = 0 then some (some nextClose)
        else fmcGo lname close lowH fuel (nextClose + close.length) d
    else some none

/-- `findMatchingClose` (html.ts lines 243-265): nesting-depth scan for the
closing tag `</tagName>`, case-insensitive, starting at depth 1. -/
def findMatchingClose (html tagName : List Char) : Option Nat :=
  let lowH := lower html
  let lname := lower tagName
  let close := '<' :: '/' :: (lname ++ ['>'])
  (fmcGo lname close lowH (lowH.length + 1) 0 1).join

/-- The foreground colors the parser passes to runs.  Theme colors are
derived from the live terminal palette in the source; since the parser
only ever stores them into runs, they are modelled as opaque tokens
(`codeGreen` is the literal "#98c379" of the source). -/
inductive Color where
  | themeText
  | themePrimary
  | themeSecondary
  | themeAccent
  | themeMuted
  | codeGreen
deriving DecidableEq

/-- A produced text node (`TextNodeRenderable.fromString(text, {fg,
attributes})`); omitted attributes are modelled as 0. -/
structure Run where
  text : List Char
  fg : Color
  attrs : Nat
deriving DecidableEq

/-- `StyleState` (html.ts lines 16-21). -/
structure StyleState where
  bold : Bool
  italic : Bool
  strikethrough : Bool
  code : Bool
deriving DecidableEq

/-- The `"ul" | "ol"` part of `ListContext.type`; `Option LType` models
`"ul" | "ol" | null`. -/
inductive LType where
  | ul
  | ol
deriving DecidableEq

/-- The bit flags of the external `TextAttributes` enum, modelled as the
distinct bits 1, 2 and 4; `|=` on distinct bits is addition. -/
def boldAttr : Nat := 1

def italicAttr : Nat := 2

def strikethroughAttr : Nat := 4

/-- `getAttributes` (html.ts lines 30-36). -/
def getAttributes (st : StyleState) : Nat :=
  (if st.bold then boldAttr else 0) + (if st.italic then italicAttr else 0) +
    (if st.strikethrough then strikethroughAttr else 0)

/-- A newline node `TextNodeRenderable.fromString("\n", { fg })`. -/
def nlRun (fg : Color) : Run := ⟨['\n'], fg, 0⟩

/-- The horizontal-rule node of html.ts line 90. -/
def hrRun : Run := ⟨str "\n───\n", Color.themeMuted, 0⟩

/-- The nodes emitted for the text preceding a tag (html.ts lines 68-77):
decode, drop decoded text that is pure whitespace containing a newline,
otherwise emit it with whitespace runs collapsed unless in code style. -/
def textBeforeNodes (pre : List Char) (st : StyleState) (fg : Color) : List Run :=
  let textBefore := decodeHtmlEntities pre
  let isFormattingWhitespace := textBefore.all isSpace && textBefore.any (fun c => c == '\n')
  if textBefore.length > 0 && !isFormattingWhitespace then
    [⟨if st.code then textBefore else collapseWs textBefore,
      if st.code then Color.codeGreen else fg, getAttributes st⟩]
  else []

/-- The node emitted for the text after the last tag (html.ts lines
58-65): decoded and emitted raw (no whitespace collapsing). -/
def trailingNodes (s : List Char) (st : StyleState) (fg : Color) : List Run :=
  let text := decodeHtmlEntities s
  if text.length > 0 then
    [⟨text, if st.code then Color.codeGreen else fg, getAttributes st⟩]
  else []

/-- `url.startsWith("/") ? "https://app.fizzy.do" + url : url`, the URL
rewriting rule shared by html.ts lines 208-211 and image.ts lines 70-73 and
96-99. -/
def absolutize (u : List Char) : List Char :=
  if (str "/").isPrefixOf u then str "https://app.fizzy.do" ++ u else u

/-- The nodes emitted for an `action-text-attachment` tag (html.ts lines
195-229).  The attributes are matched case-sensitively inside the
attribute text; the rewritten URL is only used in the branch conditions
and never reaches a run. -/
def attachmentRuns (attrs : List Char) (fg : Color) : List Run :=
  let urlOpt := firstAttr (str "url=") attrs
  let filenameOpt := firstAttr (str "filename=") attrs
  let captionOpt := firstAttr (str "caption=") attrs
  let contentTypeOpt := firstAttr (str "content-type=") attrs
  let displayName := (captionOpt.orElse fun _ => filenameOpt).getD (str "attachment")
  match urlOpt with
  | none => []
  | some _ =>
    if contentTypeOpt.elim false (fun ct => (str "image/").isPrefixOf ct) then []
    else if contentTypeOpt.elim false (fun ct => (str "video/").isPrefixOf ct) then
      [nlRun fg, ⟨str " ", Color.themeAccent, 0⟩,
        ⟨'[' :: displayName ++ [']'], Color.themeSecondary, 0⟩, nlRun fg]
    else
      [nlRun fg, ⟨str " ", Color.themeAccent, 0⟩,
        ⟨'[' :: displayName ++ [']'], Color.themeSecondary, 0⟩, nlRun fg]

/-- The case labels of the `switch (tagName)` of html.ts lines 110-236
(`br`/`hr` are handled before the switch and are not included).  One
constructor per case group, in source order; `tUnknown` is the `default`
case. -/
inductive TagKind where
  | tB
  | tI
  | tS
  | tCode
  | tH1
  | tH2
  | tH3
  | tP
  | tLi
  | tBlockquote
  | tA
  | tPre
  | tUl
  | tOl
  | tContainer
  | tAttachment
  | tImg
  | tUnknown
deriving DecidableEq

/-- The dispatch of the `switch (tagName)` statement: which case group a
(lower-cased) tag name selects. -/
def tagKind (name : List Char) : TagKind :=
  if name = str "b" ∨ name = str "strong" then .tB
  else if name = str "i" ∨ name = str "em" then .tI
  else if name = str "s" ∨ name = str "strike" ∨ name = str "del" then .tS
  else if name = str "code" then .tCode
  else if name = str "h1" then .tH1
  else if name = str "h2" then .tH2
  else if name = str "h3" then .tH3
  else if name = str "p" then .tP
  else if name = str "li" then .tLi
  else if name = str "blockquote" then .tBlockquote
  else if name = str "a" then .tA
  else if name = str "pre" then .tPre
  else if name = str "ul" then .tUl
  else if name = str "ol" then .tOl
  else if name = str "div" ∨ name = str "span" ∨ name = str "figure" ∨
      name = str "figcaption" then .tContainer
  else if name = str "action-text-attachment" then .tAttachment
  else if name = str "img" then .tImg
  else .tUnknown

/-- Sequencing used by every container branch of the parser: run the
recursive call on the tag body, feed a function of its final counter (the
JS `ListContext` is passed by reference, so passing the same object means
the body's counter updates flow back; passing a fresh object means they are
discarded) into the continuation that parses the rest of the input, and
concatenate the wrapped body nodes with the continuation nodes. -/
def combine (innerRes : Option (List Run × Nat)) (ctOf : Nat → Nat)
    (wrap : List Run → List Run) (cont : Nat → Option (List Run × Nat)) :
    Option (List Run × Nat) :=
  innerRes.bind fun p => (cont (ctOf p.2)).map fun q => (wrap p.1 ++ q.1, q.2)

/-- `parseHtmlContent` (html.ts lines 45-240), fuel-indexed.  The input
state is `(s, st, fg, lt, ct)` where `lt`/`ct` are the `type`/`counter`
fields of the ambient `ListContext`; the result carries the produced nodes
together with the final value of the ambient context's counter (the JS
code mutates the shared context object via `listContext.counter++`).
`none` means the fuel ran out; `parseFuel_total` below shows fuel
`s.length + 1` always suffices. -/
def parseFuel : Nat → List Char → StyleState → Color → Option LType → Nat →
    Option (List Run × Nat)
  | 0, _, _, _, _, _ => none
  | fuel + 1, s, st, fg, lt, ct =>
    if s.isEmpty then some ([], ct)
    else
      match tagMatch s with
      | none => some (trailingNodes s st fg, ct)
      | some m =>
        let before := textBeforeNodes m.pre st fg
        let name := lower m.name
        let rem := s.drop m.len
        let res :=
          if name = str "br" then
            (parseFuel fuel rem st fg lt ct).map fun q => (nlRun fg :: q.1, q.2)
          else if name = str "hr" then
            (parseFuel fuel rem st fg lt ct).map fun q => (hrRun :: q.1, q.2)
          else if m.closing then
            parseFuel fuel rem st fg lt ct
          else
            match findMatchingClose rem name with
            | none => parseFuel fuel rem st fg lt ct
            | some closeIndex =>
              let inner := rem.take closeIndex
              let rem2 := rem.drop (closeIndex + (name.length + 3))
              let cont := fun c => parseFuel fuel rem2 st fg lt c
              match tagKind name with
              | .tB =>
                combine (parseFuel fuel inner { st with bold := true } fg lt ct) id id cont
              | .tI =>
                combine (parseFuel fuel inner { st with italic := true } fg lt ct) id id cont
              | .tS =>
                combine (parseFuel fuel inner { st with strikethrough := true } fg lt ct) id id cont
              | .tCode =>
                combine (parseFuel fuel inner { st with code := true } fg lt ct) id id cont
              | .tH1 =>
                combine (parseFuel fuel inner { st with bold := true } Color.themePrimary lt ct) id
                  (fun ns => nlRun fg :: ns ++ [nlRun fg]) cont
              | .tH2 =>
                combine (parseFuel fuel inner { st with bold := true } Color.themeSecondary lt ct) id
                  (fun ns => nlRun fg :: ns ++ [nlRun fg]) cont
              | .tH3 =>
                combine (parseFuel fuel inner { st with bold := true } Color.themeAccent lt ct) id
                  (fun ns => nlRun fg :: ns ++ [nlRun fg]) cont
              | .tP =>
                combine (parseFuel fuel inner st fg lt ct) id (fun ns => ns ++ [nlRun fg]) cont
              | .tLi =>
                if lt = some LType.ol then
                  combine (parseFuel fuel inner st fg none 0) (fun _ => ct + 1)
                    (fun ns => ⟨natToChars (ct + 1) ++ str ". ", Color.themeAccent, 0⟩ ::
                      ns ++ [nlRun fg]) cont
                else
                  combine (parseFuel fuel inner st fg none 0) (fun _ => ct)
                    (fun ns => ⟨str "• ", Color.themeAccent, 0⟩ :: ns ++ [nlRun fg]) cont
              | .tBlockquote =>
                combine (parseFuel fuel inner { st with italic := true } Color.themeMuted lt ct) id
                  (fun ns => ⟨str "│ ", Color.themeMuted, 0⟩ :: ns ++ [nlRun fg]) cont
              | .tA =>
                let hrefRuns : List Run :=
                  match extractHref m.attrs with
                  | some h => [⟨'(' :: h ++ [')'], Color.themeMuted, 0⟩]
                  | none => []
                combine (parseFuel fuel inner st Color.themeSecondary lt ct) id
                  (fun ns => ⟨['['], Color.themeMuted, 0⟩ :: ns ++
                    ⟨[']'], Color.themeMuted, 0⟩ :: hrefRuns) cont
              | .tPre =>
                combine (parseFuel fuel inner { st with code := true } Color.codeGreen lt ct) id
                  (fun ns => nlRun fg :: ns ++ [nlRun fg]) cont
              | .tUl =>
                combine (parseFuel fuel inner st fg (some LType.ul) 0) (fun _ => ct) id cont
              | .tOl =>
                combine (parseFuel fuel inner st fg (some LType.ol) 0) (fun _ => ct) id cont
              | .tContainer =>
                combine (parseFuel fuel inner st fg lt ct) id id cont
              | .tAttachment =>
                (cont ct).map fun q => (attachmentRuns m.attrs fg ++ q.1, q.2)
              | .tImg => cont ct
              | .tUnknown =>
                combine (parseFuel fuel inner st fg none 0) (fun _ => ct) id cont
        res.map fun q => (before ++ q.1, q.2)

/-- The initial style state of `renderHtml` (html.ts lines 278-283). -/
def initialState : StyleState := ⟨false, false, false, false⟩

/-- Top-level parse as called by `renderHtml` (html.ts line 285): default
foreground `Theme.text`, default list context `{ type: null, counter: 0 }`. -/
def parseHtmlContent (html : List Char) : List Run :=
  ((parseFuel (html.length + 1) html initialState Color.themeText none 0).map Prod.fst).getD []

/-! ## Color model (theme.ts) -/

/-- The character class `[a-f\d]` of the `hexToRgb` regex with the `i`
flag: hex digits, either case. -/
def isHexDigit (c : Char) : Bool :=
  decide ((48 ≤ c.toNat ∧ c.toNat ≤ 57) ∨ (97 ≤ c.toNat ∧ c.toNat ≤ 102) ∨
    (65 ≤ c.toNat ∧ c.toNat ≤ 70))

/-- Numeric value of a hex digit (`parseInt(_, 16)` per digit). -/
def hexVal (c : Char) : Nat :=
  if c.toNat ≤ 57 then c.toNat - 48
  else if 97 ≤ c.toNat then c.toNat - 87
  else c.toNat - 55

/-- An RGB triple with integer channels (all channel values arising in the
verified claims are integers in 0..255, so JS float arithmetic is exact on
them). -/
structure Rgb where
  r : Nat
  g : Nat
  b : Nat
deriving DecidableEq

/-- The optional leading `#` of the `hexToRgb` regex: strip it if
present. -/
def stripHash (hex : List Char) : List Char :=
  match hex with
  | '#' :: t => t
  | t => t

/-- `hexToRgb` (theme.ts lines 54-64): the anchored regex
`^#?([a-f\d]{2})([a-f\d]{2})([a-f\d]{2})$` with the `i` flag — an optional
leading `#` followed by exactly six hex digits; anything else yields
black. -/
def hexToRgb (hex : List Char) : Rgb :=
  match stripHash hex with
  | [a, b, c, d, e, f] =>
    if isHexDigit a && isHexDigit b && isHexDigit c && isHexDigit d &&
        isHexDigit e && isHexDigit f then
      ⟨16 * hexVal a + hexVal b, 16 * hexVal c + hexVal d, 16 * hexVal e + hexVal f⟩
    else ⟨0, 0, 0⟩
  | _ => ⟨0, 0, 0⟩

/-- Lower-case hex digit character (`toString(16)` digit alphabet). -/
def hexChar (n : Nat) : Char :=
  if n < 10 then Char.ofNat (48 + n) else Char.ofNat (87 + n)

/-- `x.toString(16).padStart(2, "0")` for an integer `x` in 0..255: the
two-digit lowercase hex rendering. -/
def toHex2 (n : Nat) : List Char := [hexChar (n / 16), hexChar (n % 16)]

/-- `rgbToHex` (theme.ts lines 75-77) on integer channels (`Math.round` is
the identity on integers). -/
def rgbToHex (r g b : Nat) : List Char :=
  '#' :: (toHex2 r ++ toHex2 g ++ toHex2 b)

/-- The exact-rational reference value: `1000 * 255` times the luminance
`(0.299 r + 0.587 g + 0.114 b) / 255` of theme.ts line 70 computed in
exact arithmetic.  The source computes in IEEE doubles, which can differ
from this at rounding boundaries (see `isLightBackground` below); this
definition is kept to STATE such divergences. -/
def luminanceNum (c : Rgb) : Nat := 299 * c.r + 587 * c.g + 114 * c.b

/-! IEEE-754 double-precision semantics for the luminance computation.
Every JS number produced here is a non-negative dyadic rational
`m / 2 ^ s` whose mantissa fits in 53 bits; each JS arithmetic operation
computes the exact rational result and rounds it to the nearest such
value (ties to even).  The values arising from integer channels 0..255
are far inside the normal range (between roughly `2 ^ (-12)` and `2 ^ 8`
when non-zero), so overflow and subnormals cannot occur and the
round-to-nearest step below is the whole story. -/

/-- Number of binary digits of `n` (with enough fuel for every number
below `2 ^ 400`, far beyond the at-most-660-bit numbers arising here). -/
def bitsGo : Nat → Nat → Nat
  | 0, _ => 0
  | fuel + 1, n => if n = 0 then 0 else bitsGo fuel (n / 2) + 1

/-- Bit length of a natural number below `2 ^ 400`. -/
def bitLen (n : Nat) : Nat := bitsGo 400 n

/-- Round the non-negative rational `n / d` (with `d > 0`) to the nearest
IEEE double, ties to even, returned as the pair `(m, s)` denoting the
exact dyadic value `m / 2 ^ s`.  The quotient is first scaled by `2 ^ 200`
(so that, for the magnitudes arising here, at least 53 significant bits
survive the floor), its bit length is taken, and the scaled numerator is
divided at the grid of the 53rd significant bit with round-half-to-even on
the remainder. -/
def fpFromRat (n d : Nat) : Nat × Nat :=
  if n = 0 then (0, 0)
  else
    let A := n * 2 ^ 200
    let q := A / d
    let shift := bitLen q - 53
    let B := d * 2 ^ shift
    let m0 := A / B
    let r := A % B
    let m :=
      if 2 * r < B then m0
      else if 2 * r > B then m0 + 1
      else if m0 % 2 = 0 then m0 else m0 + 1
    (m, 200 - shift)

/-- JS multiplication of a double by a small integer: exact product, one
rounding. -/
def fpMulNat (x : Nat × Nat) (k : Nat) : Nat × Nat :=
  fpFromRat (x.1 * k) (2 ^ x.2)

/-- JS addition of two doubles: exact sum, one rounding. -/
def fpAdd (x y : Nat × Nat) : Nat × Nat :=
  fpFromRat (x.1 * 2 ^ y.2 + y.1 * 2 ^ x.2) (2 ^ (x.2 + y.2))

/-- JS division of a double by 255: exact quotient, one rounding. -/
def fpDiv255 (x : Nat × Nat) : Nat × Nat :=
  fpFromRat x.1 (2 ^ x.2 * 255)

/-- The comparison `(0.299 * r + 0.587 * g + 0.114 * b) / 255 > 0.5` of
theme.ts lines 70-71 with JS evaluation order (left-associated sum) and
one IEEE rounding per literal and per operation; the final comparison
`m / 2 ^ s > 1/2` is the exact test `2 m > 2 ^ s`. -/
def jsLuminanceGtHalf (r g b : Nat) : Bool :=
  let t1 := fpMulNat (fpFromRat 299 1000) r
  let t2 := fpMulNat (fpFromRat 587 1000) g
  let t3 := fpMulNat (fpFromRat 114 1000) b
  let l := fpDiv255 (fpAdd (fpAdd t1 t2) t3)
  decide (2 * l.1 > 2 ^ l.2)

/-- `isLightBackground` (theme.ts lines 67-72): the floating-point
luminance strictly greater than 0.5, in exact IEEE-double semantics.
At rounding boundaries this differs from the exact-rational comparison:
for `#da3af8` the exact luminance is exactly `1/2`, but the double
computation yields a value just above `1/2`, so the source reports
light. -/
def isLightBackground (hex : List Char) : Bool :=
  jsLuminanceGtHalf (hexToRgb hex).r (hexToRgb hex).g (hexToRgb hex).b

/-- `FIZZY_COLORS_LIGHT` (theme.ts lines 250-271), as an association
list in source order. -/
def FIZZY_COLORS_LIGHT : List (List Char × List Char) :=
  [(str "var(--color-card-1)", str "#9a9a9f"),
   (str "var(--color-card-2)", str "#b59a6e"),
   (str "var(--color-card-3)", str "#c9a000"),
   (str "var(--color-card-4)", str "#7db000"),
   (str "var(--color-card-5)", str "#009eb3"),
   (str "var(--color-card-6)", str "#8a6ed9"),
   (str "var(--color-card-7)", str "#b94dc9"),
   (str "var(--color-card-8)", str "#e45b9e"),
   (str "var(--color-card-default)", str "#2b7dde"),
   (str "var(--color-card-complete)", str "#5c5c66")]

/-- `FIZZY_COLORS_DARK` (theme.ts lines 273-295). -/
def FIZZY_COLORS_DARK : List (List Char × List Char) :=
  [(str "var(--color-card-1)", str "#8f8f97"),
   (str "var(--color-card-2)", str "#a08f6e"),
   (str "var(--color-card-3)", str "#a88900"),
   (str "var(--color-card-4)", str "#6d9600"),
   (str "var(--color-card-5)", str "#008fa0"),
   (str "var(--color-card-6)", str "#7a5fd0"),
   (str "var(--color-card-7)", str "#a446b0"),
   (str "var(--color-card-8)", str "#c5508a"),
   (str "var(--color-card-default)", str "#5a9eed"),
   (str "var(--color-card-complete)", str "#d6d6db")]

/-- `FIZZY_DEFAULT_VAR` (theme.ts line 298). -/
def FIZZY_DEFAULT_VAR : List Char := str "var(--color-card-default)"

/-- JS object property lookup `colors[key]` on the closed tables above. -/
def lookupTbl (tbl : List (List Char × List Char)) (k : List Char) : Option (List Char) :=
  (tbl.find? (fun p => p.1 == k)).map (fun p => p.2)

/-- The property keys of `Object.prototype` in ECMAScript: a property
access `colors[k]` on a plain object literal with one of these keys
yields the inherited function (or, for `__proto__`, the prototype
object) — a value that is not nullish, so the `??` of the source never
falls back to the default key for them. -/
def protoKeys : List (List Char) :=
  [str "constructor", str "hasOwnProperty", str "isPrototypeOf",
   str "propertyIsEnumerable", str "toLocaleString", str "toString",
   str "valueOf", str "__defineGetter__", str "__defineSetter__",
   str "__lookupGetter__", str "__lookupSetter__", str "__proto__"]

/-- The run-time value of the JS expression
`colors[cssVar] ?? colors[FIZZY_DEFAULT_VAR]`: either an own-property
color string of the selected table, or a non-color value inherited from
`Object.prototype` (the TypeScript cast `as keyof typeof colors` hides
this possibility from the type checker, but at run time the function
really returns it). -/
inductive JsValue where
  | color (c : List Char)
  | inherited (k : List Char)
deriving DecidableEq

/-- `getFizzyColor` (theme.ts lines 305-316).  The module-global default
background read through `Theme.isLight` is made an explicit argument `bg`.
A defined key returns its own-property value; an absent key falls back to
the default key's color via `??` unless the key is a property inherited
from `Object.prototype`, in which case the inherited (non-nullish,
non-color) value is returned.  (`!cssVar` in JS is also true for the
empty string; an empty-string key is absent from the tables and not
inherited, so it resolves to the default either way, exactly as here.) -/
def getFizzyColor (bg : List Char) (cssVar : Option (List Char)) : JsValue :=
  let colors := if isLightBackground bg then FIZZY_COLORS_LIGHT else FIZZY_COLORS_DARK
  match cssVar with
  | none => .color ((lookupTbl colors FIZZY_DEFAULT_VAR).getD [])
  | some k =>
    match lookupTbl colors k with
    | some v => .color v
    | none =>
      if protoKeys.contains k then .inherited k
      else .color ((lookupTbl colors FIZZY_DEFAULT_VAR).getD [])

/-! ## Attachment extractor (image.ts)

The two scan regexes of `extractImageUrls` need genuine greedy
backtracking (`[^>]+` before `src=`), so they are modelled by a small
matcher over token sequences: literals (optionally case-insensitive),
single-character classes and greedy `[^…]*` / `[^…]+` / `[…]+` classes.
The matcher returns the length consumed by each token, from which capture
groups are recovered. -/

/-- Tokens of the scan regexes. -/
inductive RTok where
  | lit (ci : Bool) (cs : List Char)
  | oneIn (good : List Char)
  | star (bad : List Char)
  | plus1 (bad : List Char)
  | plusIn (good : List Char)
deriving DecidableEq

/-- Literal token match at the front of `s` (case-insensitively when
`ci`). -/
def litMatches (ci : Bool) (cs s : List Char) : Bool :=
  if ci then (lower cs).isPrefixOf (lower s) else cs.isPrefixOf s

/-- Length of the maximal run of characters not in `bad`. -/
def runLenNot (bad : List Char) (s : List Char) : Nat :=
  (s.takeWhile (fun c => !(bad.contains c))).length

/-- Length of the maximal run of characters in `good`. -/
def runLenIn (good : List Char) (s : List Char) : Nat :=
  (s.takeWhile (fun c => good.contains c)).length

/-- Greedy backtracking for one class token: try consuming `k` characters
(longest first, down to `lo`), succeeding on the first `k` for which the
rest of the pattern matches. -/
def tryDown (next : List Char → Option (List Nat)) (s : List Char) (lo : Nat) :
    Nat → Option (List Nat)
  | 0 => if lo > 0 then none else (next s).map (fun ls => 0 :: ls)
  | k + 1 =>
    if k + 1 < lo then none
    else
      match next (s.drop (k + 1)) with
      | some ls => some ((k + 1) :: ls)
      | none => tryDown next s lo k

/-- Match a token sequence at the front of `s`, returning per-token
consumed lengths (standard greedy leftmost backtracking semantics).  One
unit of fuel is spent per token, so `toks.length + 1` suffices. -/
def mseq : Nat → List RTok → List Char → Option (List Nat)
  | 0, _, _ => none
  | _ + 1, [], _ => some []
  | fuel + 1, t :: rest, s =>
    match t with
    | .lit ci cs =>
      if litMatches ci cs s then (mseq fuel rest (s.drop cs.length)).map (fun ls => cs.length :: ls)
      else none
    | .oneIn good =>
      match s with
      | c :: t2 => if good.contains c then (mseq fuel rest t2).map (fun ls => 1 :: ls) else none
      | [] => none
    | .star bad => tryDown (mseq fuel rest) s 0 (runLenNot bad s)
    | .plus1 bad => tryDown (mseq fuel rest) s 1 (runLenNot bad s)
    | .plusIn good => tryDown (mseq fuel rest) s 1 (runLenIn good s)

/-- Match a token sequence at the front of `s`. -/
def matchToksAt (toks : List RTok) (s : List Char) : Option (List Nat) :=
  mseq (toks.length + 1) toks s

/-- All matches of a token sequence in `s`, modelling the
`while ((match = re.exec(s)) !== null)` loops with the `g` flag: find the
leftmost match at or after the current position, record it, continue after
its end.  Returns (start position, per-token lengths) pairs. -/
def scanAllGo (toks : List RTok) : Nat → List Char → Nat → List (Nat × List Nat)
  | 0, _, _ => []
  | fuel + 1, s, pos =>
    if pos < s.length then
      match matchToksAt toks (s.drop pos) with
      | some lens => (pos, lens) :: scanAllGo toks fuel s (pos + lens.foldl (· + ·) 0)
      | none => scanAllGo toks fuel s (pos + 1)
    else []

/-- All matches of a token sequence in `s`. -/
def scanAll (toks : List RTok) (s : List Char) : List (Nat × List Nat) :=
  scanAllGo toks (s.length + 1) s 0

/-- Sum of the first `i` token lengths. -/
def sumTake (lens : List Nat) (i : Nat) : Nat := (lens.take i).foldl (· + ·) 0

/-- The substring captured by token `i` of a match at `pos`. -/
def capAt (s : List Char) (pos : Nat) (lens : List Nat) (i : Nat) : List Char :=
  (s.drop (pos + sumTake lens i)).take (lens.getD i 0)

/-- The attachment scan regex
`<action-text-attachment[^>]+content-type=["']image\/[^"']+["'][^>]*>`
with flags `gi` (image.ts line 58). -/
def attachmentToks : List RTok :=
  [.lit true (str "<action-text-attachment"), .plus1 ['>'],
   .lit true (str "content-type="), .oneIn quoteChars, .lit true (str "image/"),
   .plus1 quoteChars, .oneIn quoteChars, .star ['>'], .lit true (str ">")]

/-- The image scan regex `<img[^>]+src=["']([^"']+)["'][^>]*>` with flags
`gi` (image.ts line 84); the `src` capture is token index 4. -/
def imgToks : List RTok :=
  [.lit true (str "<img"), .plus1 ['>'], .lit true (str "src="), .oneIn quoteChars,
   .plus1 quoteChars, .oneIn quoteChars, .star ['>'], .lit true (str ">")]

/-- Match `key["'](\d+)["']` at the front of `s` (the width/height
attribute regexes); deterministic for the same reason as `matchAttrAt`. -/
def matchNumAttrAt (key s : List Char) : Option (List Char) :=
  match stripPre key s with
  | none => none
  | some r1 =>
    match r1 with
    | [] => none
    | q :: r2 =>
      if quoteChars.contains q then
        let v := r2.takeWhile (fun c => decide (48 ≤ c.toNat ∧ c.toNat ≤ 57))
        if v.length > 0 then
          match r2.drop v.length with
          | q2 :: _ => if quoteChars.contains q2 then some v else none
          | [] => none
        else none
      else none

/-- First match of `key["'](\d+)["']` in `s`. -/
def firstNumAttr (key : List Char) : List Char → Option (List Char)
  | [] => none
  | c :: t =>
    match matchNumAttrAt key (c :: t) with
    | some v => some v
    | none => firstNumAttr key t

/-- `parseInt` on a non-empty digit string. -/
def natOfDigits (ds : List Char) : Nat :=
  ds.foldl (fun acc c => 10 * acc + (c.toNat - 48)) 0

/-- `ImageInfo` (image.ts lines 5-10). -/
structure ImageInfo where
  url : List Char
  alt : List Char
  width : Option Nat
  height : Option Nat
deriving DecidableEq

/-- The body of the attachment loop (image.ts lines 61-81): extract the
`url` attribute from the matched tag text; if present, push a descriptor
with the URL made absolute, the filename (or "image") as alt text and
optional numeric width/height. -/
def attachmentStep (html : List Char) (acc : List ImageInfo) (m : Nat × List Nat) :
    List ImageInfo :=
  let tag := (html.drop m.1).take (m.2.foldl (· + ·) 0)
  match firstAttr (str "url=") tag with
  | none => acc
  | some url =>
    acc ++ [⟨absolutize url,
      (firstAttr (str "filename=") tag).getD (str "image"),
      (firstNumAttr (str "width=") tag).map natOfDigits,
      (firstNumAttr (str "height=") tag).map natOfDigits⟩]

/-- The body of the img loop (image.ts lines 86-107): skip the tag iff its
`src` begins with "/" and some previously accumulated descriptor's URL
contains `src` minus its leading slash as a substring; otherwise push a
descriptor with the URL made absolute. -/
def imgStep (html : List Char) (acc : List ImageInfo) (m : Nat × List Nat) :
    List ImageInfo :=
  let tag := (html.drop m.1).take (m.2.foldl (· + ·) 0)
  let src := capAt html m.1 m.2 4
  if !((str "/").isPrefixOf src) || !(acc.any fun img => containsSub img.url (src.drop 1)) then
    acc ++ [⟨absolutize src,
      (firstAttr (str "alt=") tag).getD (str "image"),
      (firstNumAttr (str "width=") tag).map natOfDigits,
      (firstNumAttr (str "height=") tag).map natOfDigits⟩]
  else acc

/-- `extractImageUrls` (image.ts lines 54-110): the attachment loop
populates `images` first, then the img loop appends, de-duplicating against
everything accumulated so far. -/
def extractImageUrls (html : List Char) : List ImageInfo :=
  let images := (scanAll attachmentToks html).foldl (attachmentStep html) []
  (scanAll imgToks html).foldl (imgStep html) images

/-! ## Helper lemmas -/

theorem length_takeWhile_le (p : Char → Bool) (l : List Char) :
    (l.takeWhile p).length ≤ l.length := by
  induction l with
  | nil => simp [List.takeWhile]
  | cons c cs ih =>
    simp only [List.takeWhile]
    split
    · simpa using Nat.succ_le_succ ih
    · simp

theorem tagMatch_ne_nil {s : List Char} {m : TagMatch} (h : tagMatch s = some m) :
    s.isEmpty = false := by
  cases s with
  | nil => simp [tagMatch] at h
  | cons c t => rfl

theorem nameAttrsMatch_len {a : List Char} {r : List Char × List Char}
    (h : nameAttrsMatch a = some r) : r.1.length + r.2.length + 1 ≤ a.length := by
  simp only [nameAttrsMatch] at h
  split at h
  · exact absurd h (by simp)
  next hname =>
    split at h
    · exact absurd h (by simp)
    next hrest =>
      obtain rfl : _ = r := Option.some.inj h
      simp only
      have e3 := length_takeWhile_le isWordChar a
      have h5 := List.length_drop (a.takeWhile isWordChar).length a
      have h6 : ((a.drop (a.takeWhile isWordChar).length).drop
          (((a.drop (a.takeWhile isWordChar).length).takeWhile
            (fun c => c != '>')).length)).length ≠ 0 := by
        intro hc
        rw [List.length_eq_zero] at hc
        rw [hc] at hrest
        exact hrest rfl
      have h7 := List.length_drop
        (((a.drop (a.takeWhile isWordChar).length).takeWhile
          (fun c => c != '>')).length)
        (a.drop (a.takeWhile isWordChar).length)
      omega

theorem tagMatch_len {s : List Char} {m : TagMatch} (h : tagMatch s = some m) :
    0 < m.len ∧ m.len ≤ s.length := by
  simp only [tagMatch] at h
  have e2 : ∀ c after, s.drop (s.takeWhile (fun c => c != '<')).length = c :: after →
      (s.takeWhile (fun c => c != '<')).length < s.length ∧
      s.length - (s.takeWhile (fun c => c != '<')).length = after.length + 1 := by
    intro c after heq
    constructor
    · by_contra hc
      have : s.drop (s.takeWhile (fun c => c != '<')).length = [] :=
        List.drop_eq_nil_iff.mpr (by omega)
      rw [this] at heq
      exact List.noConfusion heq
    · rw [← List.length_drop, heq]
      simp
  split at h
  · exact absurd h (by simp)
  next c after2 heq =>
    cases hna : nameAttrsMatch after2 with
    | none => rw [hna] at h; exact absurd h (by simp)
    | some r =>
      rw [hna] at h
      simp only [Option.map_some'] at h
      obtain rfl : _ = m := Option.some.inj h
      have h1 := nameAttrsMatch_len hna
      have h2 := e2 _ _ heq
      simp only [List.length_cons] at h2
      dsimp only
      omega
  next c after2 hne heq =>
    cases hna : nameAttrsMatch after2 with
    | none => rw [hna] at h; exact absurd h (by simp)
    | some r =>
      rw [hna] at h
      simp only [Option.map_some'] at h
      obtain rfl : _ = m := Option.some.inj h
      have h1 := nameAttrsMatch_len hna
      have h2 := e2 _ _ heq
      simp only [List.length_cons] at h2
      dsimp only
      omega

theorem combine_isSome {innerRes : Option (List Run × Nat)} {ctOf : Nat → Nat}
    {wrap : List Run → List Run} {cont : Nat → Option (List Run × Nat)}
    (hi : innerRes.isSome = true) (hc : ∀ c, (cont c).isSome = true) :
    (combine innerRes ctOf wrap cont).isSome = true := by
  unfold combine
  cases innerRes with
  | none => exact absurd hi (by simp)
  | some p =>
    have := hc (ctOf p.2)
    cases hcp : cont (ctOf p.2) with
    | none => rw [hcp] at this; exact absurd this (by simp)
    | some q => simp [Option.bind, hcp]

/-- Fuel sufficiency for `parseFuel`: any fuel exceeding the input length
makes the parser complete.  Together with the progress property of
`tagMatch` (`tagMatch_len`) this is the termination guarantee: every loop
iteration consumes a strictly positive prefix of the remaining input, and
every recursive call is on a strictly shorter string. -/
theorem parseFuel_isSome :
    ∀ fuel s st fg lt ct, s.length < fuel →
      (parseFuel fuel s st fg lt ct).isSome = true := by
  intro fuel
  induction fuel with
  | zero => intro s st fg lt ct h; exact absurd h (Nat.not_lt_zero _)
  | succ n ih =>
    intro s st fg lt ct h
    rw [parseFuel]
    split
    · rfl
    next hne =>
      cases htm : tagMatch s with
      | none => rfl
      | some m =>
        rw [Option.isSome_map']
        have hlen := tagMatch_len htm
        have hs : 0 < s.length := by
          cases s with
          | nil => simp at hne
          | cons _ _ => simp
        have hrem : (s.drop m.len).length < n := by
          rw [List.length_drop]
          omega
        have htake : ∀ k, ((s.drop m.len).take k).length < n := by
          intro k
          rw [List.length_take]
          rw [List.length_drop]
          omega
        have hdrop : ∀ k, ((s.drop m.len).drop k).length < n := by
          intro k
          rw [List.length_drop, List.length_drop]
          omega
        split
        · rw [Option.isSome_map']
          exact ih _ _ _ _ _ hrem
        split
        · rw [Option.isSome_map']
          exact ih _ _ _ _ _ hrem
        split
        · exact ih _ _ _ _ _ hrem
        split
        · exact ih _ _ _ _ _ hrem
        next closeIndex hfmc =>
          split <;>
            first
            | exact combine_isSome (ih _ _ _ _ _ (htake _)) (fun c => ih _ _ _ _ _ (hdrop _))
            | (rw [Option.isSome_map']; exact ih _ _ _ _ _ (hdrop _))
            | exact ih _ _ _ _ _ (hdrop _)
            | (split <;>
                exact combine_isSome (ih _ _ _ _ _ (htake _)) (fun c => ih _ _ _ _ _ (hdrop _)))

theorem indexOfAux_ge {needle : List Char} :
    ∀ s i j, indexOfAux needle s i = some j → i ≤ j := by
  intro s
  induction s with
  | nil =>
    intro i j h
    simp only [indexOfAux] at h
    split at h
    · exact Nat.le_of_eq (Option.some.inj h)
    · exact absurd h (by simp)
  | cons c t ih =>
    intro i j h
    simp only [indexOfAux] at h
    split at h
    · exact Nat.le_of_eq (Option.some.inj h)
    · exact Nat.le_of_succ_le (ih (i + 1) j h)

theorem indexOfAux_sound {needle : List Char} :
    ∀ s i j, indexOfAux needle s i = some j →
      needle.isPrefixOf (s.drop (j - i)) = true := by
  intro s
  induction s with
  | nil =>
    intro i j h
    simp only [indexOfAux] at h
    split at h
    next hemp =>
      obtain rfl : i = j := Option.some.inj h
      rw [List.isEmpty_iff] at hemp
      subst hemp
      simp [List.isPrefixOf]
    · exact absurd h (by simp)
  | cons c t ih =>
    intro i j h
    simp only [indexOfAux] at h
    split at h
    next hpre =>
      obtain rfl : i = j := Option.some.inj h
      simpa using hpre
    next hpre =>
      have hge : i + 1 ≤ j := indexOfAux_ge _ _ _ h
      have := ih (i + 1) j h
      have hdj : (c :: t).drop (j - i) = t.drop (j - (i + 1)) := by
        have : j - i = (j - (i + 1)) + 1 := by omega
        rw [this]
        rfl
      rw [hdj]
      exact this

theorem indexOfFrom_sound {hay needle : List Char} {start j : Nat}
    (h : indexOfFrom hay needle start = some j) :
    start ≤ j ∧ needle.isPrefixOf (hay.drop j) = true := by
  refine ⟨indexOfAux_ge _ _ _ h, ?_⟩
  have hs := indexOfAux_sound _ _ _ h
  have hge : start ≤ j := indexOfAux_ge _ _ _ h
  rw [List.drop_drop] at hs
  have heq2 : start + (j - start) = j := by omega
  rwa [heq2] at hs

theorem isPrefixOf_length_le {p s : List Char} (h : p.isPrefixOf s = true) :
    p.length ≤ s.length := by
  rw [List.isPrefixOf_iff_prefix] at h
  exact h.length_le

theorem fmcGo_isSome {lname close lowH : List Char} (hc : 0 < close.length) :
    ∀ fuel pos depth, pos ≤ lowH.length → lowH.length < pos + fuel →
      (fmcGo lname close lowH fuel pos depth).isSome = true := by
  intro fuel
  induction fuel with
  | zero => intro pos depth hle h; omega
  | succ n ih =>
    intro pos depth hle h
    rw [fmcGo]
    split
    next hin =>
      split
      · rfl
      next nc hio =>
        obtain ⟨hge, hpre⟩ := indexOfFrom_sound hio
        have hnc : nc + close.length ≤ lowH.length := by
          have := isPrefixOf_length_le hpre
          rw [List.length_drop] at this
          omega
        dsimp only
        split
        · rfl
        · apply ih
          · omega
          · omega
    · rfl

/-! ## Claim theorems -/

/-- C1: the markup parser terminates on every input string, including
unmatched opening tags, unmatched closing tags and arbitrary nesting:
(1) any fuel exceeding the input length makes `parseFuel` complete (so the
recursion, whose every recursive call is on a strictly shorter string,
always terminates); (2) every successful tag match consumes a strictly
positive prefix of the remaining input (and never more than all of it);
(3) the nesting-depth scan of `findMatchingClose` completes within its
fuel `length + 1` on every input, because every loop iteration strictly
advances the scan position. -/
theorem C1_parser_terminates :
    (∀ fuel s st fg lt ct, s.length < fuel →
      (parseFuel fuel s st fg lt ct).isSome = true) ∧
    (∀ s m, tagMatch s = some m → 0 < m.len ∧ m.len ≤ s.length) ∧
    (∀ html tagName,
      (fmcGo (lower tagName) ('<' :: '/' :: (lower tagName ++ ['>'])) (lower html)
        ((lower html).length + 1) 0 1).isSome = true) :=
  ⟨parseFuel_isSome,
   fun _ _ h => tagMatch_len h,
   fun html tagName =>
     fmcGo_isSome (by simp) ((lower html).length + 1) 0 1 (Nat.zero_le _) (by omega)⟩

theorem C1_witness :
    (parseFuel 5 (str "<b>x") initialState Color.themeText none 0).isSome = true ∧
    (0 < (⟨[], false, str "b", [], 3⟩ : TagMatch).len ∧
      (⟨[], false, str "b", [], 3⟩ : TagMatch).len ≤ (str "<b>x").length) :=
  ⟨C1_parser_terminates.1 5 (str "<b>x") initialState Color.themeText none 0 (by decide),
   C1_parser_terminates.2.1 (str "<b>x") ⟨[], false, str "b", [], 3⟩ (by decide)⟩

theorem ol_opens_fresh_scope {s : List Char} {m : TagMatch} {ci : Nat}
    (fuel : Nat) (st : StyleState) (fg : Color) (lt : Option LType) (ct : Nat)
    (htm : tagMatch s = some m) (hcl : m.closing = false)
    (hname : lower m.name = str "ol")
    (hfmc : findMatchingClose (s.drop m.len) (str "ol") = some ci) :
    parseFuel (fuel + 1) s st fg lt ct =
      (combine (parseFuel fuel ((s.drop m.len).take ci) st fg (some LType.ol) 0)
        (fun _ => ct) id
        (fun c => parseFuel fuel ((s.drop m.len).drop (ci + ((str "ol").length + 3)))
          st fg lt c)).map
        (fun q => (textBeforeNodes m.pre st fg ++ q.1, q.2)) := by
  have hne := tagMatch_ne_nil htm
  rw [parseFuel, hne]
  rw [if_neg (by simp)]
  rw [htm]
  dsimp only
  rw [hname]
  rw [if_neg (by decide), if_neg (by decide)]
  rw [hcl]
  rw [if_neg (by simp)]
  rw [hfmc]
  dsimp only
  have hk : tagKind (str "ol") = TagKind.tOl := by rfl
  rw [hk]

theorem li_increments_ol_counter {s : List Char} {m : TagMatch} {ci : Nat}
    (fuel : Nat) (st : StyleState) (fg : Color) (ct : Nat)
    (htm : tagMatch s = some m) (hcl : m.closing = false)
    (hname : lower m.name = str "li")
    (hfmc : findMatchingClose (s.drop m.len) (str "li") = some ci) :
    parseFuel (fuel + 1) s st fg (some LType.ol) ct =
      (combine (parseFuel fuel ((s.drop m.len).take ci) st fg none 0)
        (fun _ => ct + 1)
        (fun ns => ⟨natToChars (ct + 1) ++ str ". ", Color.themeAccent, 0⟩ ::
          ns ++ [nlRun fg])
        (fun c => parseFuel fuel ((s.drop m.len).drop (ci + ((str "li").length + 3)))
          st fg (some LType.ol) c)).map
        (fun q => (textBeforeNodes m.pre st fg ++ q.1, q.2)) := by
  have hne := tagMatch_ne_nil htm
  rw [parseFuel, hne]
  rw [if_neg (by simp)]
  rw [htm]
  dsimp only
  rw [hname]
  rw [if_neg (by decide), if_neg (by decide)]
  rw [hcl]
  rw [if_neg (by simp)]
  rw [hfmc]
  dsimp only
  have hk : tagKind (str "li") = TagKind.tLi := by rfl
  rw [hk]
  dsimp only
  rw [if_pos rfl]

/-- C5: every `<ol>` tag opens a fresh list scope with counter 0 (the body
is parsed with context `(ol, 0)` and the ambient counter `ct` flows
unchanged to the continuation), every `<li>` in an ordered scope
increments the nearest enclosing scope's counter and renders the
incremented value (the continuation receives `ct + 1` and the rendered
prefix is `(ct+1). `), and consequently
`<ol><li>a</li><li>b</li></ol><ol><li>c</li></ol>` renders counters
1, 2, then 1 — never 3. -/
theorem C5_ordered_list_counters :
    (∀ (s : List Char) (m : TagMatch) (ci fuel : Nat) (st : StyleState)
        (fg : Color) (lt : Option LType) (ct : Nat),
      tagMatch s = some m → m.closing = false → lower m.name = str "ol" →
      findMatchingClose (s.drop m.len) (str "ol") = some ci →
      parseFuel (fuel + 1) s st fg lt ct =
        (combine (parseFuel fuel ((s.drop m.len).take ci) st fg (some LType.ol) 0)
          (fun _ => ct) id
          (fun c => parseFuel fuel ((s.drop m.len).drop (ci + ((str "ol").length + 3)))
            st fg lt c)).map
          (fun q => (textBeforeNodes m.pre st fg ++ q.1, q.2))) ∧
    (∀ (s : List Char) (m : TagMatch) (ci fuel : Nat) (st : StyleState)
        (fg : Color) (ct : Nat),
      tagMatch s = some m → m.closing = false → lower m.name = str "li" →
      findMatchingClose (s.drop m.len) (str "li") = some ci →
      parseFuel (fuel + 1) s st fg (some LType.ol) ct =
        (combine (parseFuel fuel ((s.drop m.len).take ci) st fg none 0)
          (fun _ => ct + 1)
          (fun ns => ⟨natToChars (ct + 1) ++ str ". ", Color.themeAccent, 0⟩ ::
            ns ++ [nlRun fg])
          (fun c => parseFuel fuel ((s.drop m.len).drop (ci + ((str "li").length + 3)))
            st fg (some LType.ol) c)).map
          (fun q => (textBeforeNodes m.pre st fg ++ q.1, q.2))) ∧
    parseHtmlContent (str "<ol><li>a</li><li>b</li></ol><ol><li>c</li></ol>") =
      [⟨str "1. ", Color.themeAccent, 0⟩, ⟨str "a", Color.themeText, 0⟩,
       ⟨str "\n", Color.themeText, 0⟩,
       ⟨str "2. ", Color.themeAccent, 0⟩, ⟨str "b", Color.themeText, 0⟩,
       ⟨str "\n", Color.themeText, 0⟩,
       ⟨str "1. ", Color.themeAccent, 0⟩, ⟨str "c", Color.themeText, 0⟩,
       ⟨str "\n", Color.themeText, 0⟩] :=
  ⟨fun _ _ _ fuel st fg lt ct htm hcl hname hfmc =>
      ol_opens_fresh_scope fuel st fg lt ct htm hcl hname hfmc,
   fun _ _ _ fuel st fg ct htm hcl hname hfmc =>
      li_increments_ol_counter fuel st fg ct htm hcl hname hfmc,
   by decide⟩

theorem C5_witness :
    parseFuel 10 (str "<ol>x</ol>") initialState Color.themeText none 7 =
      (combine (parseFuel 9 (((str "<ol>x</ol>").drop 4).take 1) initialState
          Color.themeText (some LType.ol) 0)
        (fun _ => 7) id
        (fun c => parseFuel 9 (((str "<ol>x</ol>").drop 4).drop (1 + ((str "ol").length + 3)))
          initialState Color.themeText none c)).map
        (fun q => (textBeforeNodes [] initialState Color.themeText ++ q.1, q.2)) :=
  C5_ordered_list_counters.1 (str "<ol>x</ol>") ⟨[], false, str "ol", [], 4⟩ 1 9
    initialState Color.themeText none 7 (by decide) rfl (by decide) (by decide)

/-- Modelled from the spec: an open tag of exactly the given name, for the
nesting-depth scan as the specification words it ("each nested same-name
open"): `<`, then the full word-character run equal to `lname` (the next
character must not be a word character, otherwise the actual tag name is
longer), then attributes and a `>`.  This differs from the source's
`<lname[^>]*>` pattern, which also matches tags whose name merely begins
with `lname`. -/
def sameNameOpenLen (lname : List Char) (s : List Char) : Option Nat :=
  match s with
  | '<' :: rest =>
    if lname.isPrefixOf rest then
      let afterName := rest.drop lname.length
      if afterName.head?.elim true (fun c => !(isWordChar c)) then
        let attrs := afterName.takeWhile (fun c => c != '>')
        if (afterName.drop attrs.length).isEmpty then none
        else some (1 + lname.length + attrs.length + 1)
      else none
    else none
  | _ => none

/-- Modelled from the spec: count of same-name opens in a segment. -/
def countSameNameOpens (lname : List Char) : Nat → List Char → Nat
  | 0, _ => 0
  | _ + 1, [] => 0
  | fuel + 1, c :: t =>
    match sameNameOpenLen lname (c :: t) with
    | some k => 1 + countSameNameOpens lname fuel ((c :: t).drop k)
    | none => countSameNameOpens lname fuel t

/-- Modelled from the spec: the nesting-depth scan with same-name open
counting (the claimed behavior), otherwise identical to `fmcGo`. -/
def fmcSameNameGo (lname close lowH : List Char) : Nat → Nat → Nat → Option (Option Nat)
  | 0, _, _ => none
  | fuel + 1, pos, depth =>
    if depth > 0 ∧ pos < lowH.length then
      match indexOfFrom lowH close pos with
      | none => some none
      | some nextClose =>
        let seg := (lowH.drop pos).take (nextClose - pos)
        let opens := countSameNameOpens lname seg.length seg
        let d := depth + opens - 1
        if d = 0 then some (some nextClose)
        else fmcSameNameGo lname close lowH fuel (nextClose + close.length) d
    else some none

/-- Modelled from the spec: `findMatchingClose` as the specification
describes it, incrementing depth only for nested opens of the same tag
name. -/
def findMatchingCloseSameName (html tagName : List Char) : Option Nat :=
  let lowH := lower html
  let lname := lower tagName
  let close := '<' :: '/' :: (lname ++ ['>'])
  (fmcSameNameGo lname close lowH (lowH.length + 1) 0 1).join

theorem fmcGo_sound {lname close lowH : List Char} :
    ∀ fuel pos depth c, fmcGo lname close lowH fuel pos depth = some (some c) →
      close.isPrefixOf (lowH.drop c) = true := by
  intro fuel
  induction fuel with
  | zero => intro pos depth c h; simp [fmcGo] at h
  | succ n ih =>
    intro pos depth c h
    rw [fmcGo] at h
    split at h
    next hin =>
      split at h
      · exact absurd h (by simp)
      next nc hio =>
        dsimp only at h
        split at h
        · obtain rfl : nc = c := Option.some.inj (Option.some.inj h)
          exact (indexOfFrom_sound hio).2
        · exact ih _ _ _ h
    · exact absurd h (by simp)

theorem findMatchingClose_sound {html tagName : List Char} {c : Nat}
    (h : findMatchingClose html tagName = some c) :
    ('<' :: '/' :: (lower tagName ++ ['>'])).isPrefixOf ((lower html).drop c) = true := by
  unfold findMatchingClose at h
  rw [Option.join_eq_some] at h
  exact fmcGo_sound _ _ _ _ h

theorem noclose_drops_tag {s : List Char} {m : TagMatch}
    (fuel : Nat) (st : StyleState) (fg : Color) (lt : Option LType) (ct : Nat)
    (htm : tagMatch s = some m) (hcl : m.closing = false)
    (hbr : ¬ lower m.name = str "br") (hhr : ¬ lower m.name = str "hr")
    (hfmc : findMatchingClose (s.drop m.len) (lower m.name) = none) :
    parseFuel (fuel + 1) s st fg lt ct =
      (parseFuel fuel (s.drop m.len) st fg lt ct).map
        (fun q => (textBeforeNodes m.pre st fg ++ q.1, q.2)) := by
  have hne := tagMatch_ne_nil htm
  rw [parseFuel, hne]
  rw [if_neg (by simp)]
  rw [htm]
  dsimp only
  rw [if_neg hbr, if_neg hhr]
  rw [hcl]
  rw [if_neg (by simp)]
  rw [hfmc]

/-- C3 counterexample: the claim says depth is incremented exactly once
for each nested open tag OF THE SAME TAG NAME.  On `<br></b></b>` with tag
name `b`, the source's scan counts the `<br>` as a nested open of `b`
(its open-tag pattern `<b[^>]*>` matches any tag whose name begins with
`b`) and therefore skips the first `</b>`, returning index 8; the
same-name scan the claim describes returns index 4.  Observably, in
`<b>x<br></b>y</b>` the parser renders `y` in bold: the bold body extends
through the second `</b>`. -/
theorem C3_counterexample :
    findMatchingClose (str "<br></b></b>") (str "b") = some 8 ∧
    findMatchingCloseSameName (str "<br></b></b>") (str "b") = some 4 ∧
    parseFuel 18 (str "<b>x<br></b>y</b>") initialState Color.themeText none 0 =
      some ([⟨str "x", Color.themeText, 1⟩, ⟨str "\n", Color.themeText, 0⟩,
        ⟨str "y", Color.themeText, 1⟩], 0) := by
  refine ⟨by decide, by decide, by decide⟩

/-- C3 (amended): the parser locates the closing tag of a container tag by
the nesting-depth scan of `findMatchingClose`, in which depth is
incremented once for each match of the open-tag pattern `<name[^>]*>` in
the scanned segment — a pattern that also matches tags whose name merely
begins with the given name (e.g. `<br>` counts as a nested open of `b`) —
and decremented once per candidate close; the position it returns always
carries an actual occurrence of the closing tag `</name>`
(case-insensitively); and when no matching close is found the tag is
dropped and parsing continues over the remaining raw text. -/
theorem C3_nesting_scan :
    (∀ html tagName c, findMatchingClose html tagName = some c →
      ('<' :: '/' :: (lower tagName ++ ['>'])).isPrefixOf ((lower html).drop c) = true) ∧
    (∀ (s : List Char) (m : TagMatch) (fuel : Nat) (st : StyleState) (fg : Color)
        (lt : Option LType) (ct : Nat),
      tagMatch s = some m → m.closing = false →
      ¬ lower m.name = str "br" → ¬ lower m.name = str "hr" →
      findMatchingClose (s.drop m.len) (lower m.name) = none →
      parseFuel (fuel + 1) s st fg lt ct =
        (parseFuel fuel (s.drop m.len) st fg lt ct).map
          (fun q => (textBeforeNodes m.pre st fg ++ q.1, q.2))) ∧
    countOpens (str "b") (str "<br>").length (str "<br>") = 1 :=
  ⟨fun _ _ _ h => findMatchingClose_sound h,
   fun _ _ fuel st fg lt ct htm hcl hbr hhr hfmc =>
     noclose_drops_tag fuel st fg lt ct htm hcl hbr hhr hfmc,
   by decide⟩

theorem C3_witness :
    ('<' :: '/' :: (lower (str "b") ++ ['>'])).isPrefixOf
      ((lower (str "x</b>")).drop 1) = true ∧
    parseFuel 5 (str "<b>x") initialState Color.themeText none 0 =
      (parseFuel 4 ((str "<b>x").drop 3) initialState Color.themeText none 0).map
        (fun q => (textBeforeNodes [] initialState Color.themeText ++ q.1, q.2)) :=
  ⟨C3_nesting_scan.1 (str "x</b>") (str "b") 1 (by decide),
   C3_nesting_scan.2.1 (str "<b>x") ⟨[], false, str "b", [], 3⟩ 4 initialState
     Color.themeText none 0 (by decide) rfl (by decide) (by decide) (by decide)⟩

/-- C4 counterexample: the claim says an unknown tag is a transparent
container that preserves the list context, so wrapping list items in an
unknown tag inside `<ol>` should not change the rendered runs.  In fact
the default case recurses with the default (empty) list context: inside an
ordered scope, `<x><li>a</li></x>` renders a bullet while `<li>a</li>`
renders the counter `1. `. -/
theorem C4_counterexample :
    parseFuel 30 (str "<x><li>a</li></x>") initialState Color.themeText
        (some LType.ol) 0 ≠
      parseFuel 30 (str "<li>a</li>") initialState Color.themeText
        (some LType.ol) 0 := by
  decide

theorem unknown_tag_resets_context {s : List Char} {m : TagMatch} {ci : Nat}
    (fuel : Nat) (st : StyleState) (fg : Color) (lt : Option LType) (ct : Nat)
    (htm : tagMatch s = some m) (hcl : m.closing = false)
    (hbr : ¬ lower m.name = str "br") (hhr : ¬ lower m.name = str "hr")
    (hkind : tagKind (lower m.name) = TagKind.tUnknown)
    (hfmc : findMatchingClose (s.drop m.len) (lower m.name) = some ci) :
    parseFuel (fuel + 1) s st fg lt ct =
      (combine (parseFuel fuel ((s.drop m.len).take ci) st fg none 0)
        (fun _ => ct) id
        (fun c => parseFuel fuel ((s.drop m.len).drop (ci + ((lower m.name).length + 3)))
          st fg lt c)).map
        (fun q => (textBeforeNodes m.pre st fg ++ q.1, q.2)) := by
  have hne := tagMatch_ne_nil htm
  rw [parseFuel, hne]
  rw [if_neg (by simp)]
  rw [htm]
  dsimp only
  rw [if_neg hbr, if_neg hhr]
  rw [hcl]
  rw [if_neg (by simp)]
  rw [hfmc]
  dsimp only
  rw [hkind]

/-- C4 (amended): the body of an unknown (not specifically handled)
non-closing tag with a matching close is parsed recursively with the style
state and foreground unchanged, but with a FRESH empty list context
(`type: null, counter: 0`) — the default parameter of the recursive call —
and the ambient counter flows unchanged past the tag; so an unknown tag
wrapper is transparent for styling but not for ordered-list numbering. -/
theorem C4_unknown_tag_transparent :
    ∀ (s : List Char) (m : TagMatch) (ci fuel : Nat) (st : StyleState) (fg : Color)
        (lt : Option LType) (ct : Nat),
      tagMatch s = some m → m.closing = false →
      ¬ lower m.name = str "br" → ¬ lower m.name = str "hr" →
      tagKind (lower m.name) = TagKind.tUnknown →
      findMatchingClose (s.drop m.len) (lower m.name) = some ci →
      parseFuel (fuel + 1) s st fg lt ct =
        (combine (parseFuel fuel ((s.drop m.len).take ci) st fg none 0)
          (fun _ => ct) id
          (fun c => parseFuel fuel ((s.drop m.len).drop (ci + ((lower m.name).length + 3)))
            st fg lt c)).map
          (fun q => (textBeforeNodes m.pre st fg ++ q.1, q.2)) :=
  fun _ _ _ fuel st fg lt ct htm hcl hbr hhr hkind hfmc =>
    unknown_tag_resets_context fuel st fg lt ct htm hcl hbr hhr hkind hfmc

theorem C4_witness :
    parseFuel 9 (str "<x>y</x>") initialState Color.themeText (some LType.ol) 5 =
      (combine (parseFuel 8 (((str "<x>y</x>").drop 3).take 1) initialState
          Color.themeText none 0)
        (fun _ => 5) id
        (fun c => parseFuel 8 (((str "<x>y</x>").drop 3).drop (1 + ((lower (str "x")).length + 3)))
          initialState Color.themeText (some LType.ol) c)).map
        (fun q => (textBeforeNodes [] initialState Color.themeText ++ q.1, q.2)) :=
  C4_unknown_tag_transparent (str "<x>y</x>") ⟨[], false, str "x", [], 3⟩ 1 8
    initialState Color.themeText (some LType.ol) 5 (by decide) rfl (by decide) (by decide)
    (by decide) (by decide)

/-- C6 counterexample: the claim says a purely-whitespace text segment
before a tag is not emitted.  The source only skips whitespace that
contains a newline (`trim() === "" && includes("\\n")`): on `" <br>"` the
single-space segment IS emitted as a run of pure whitespace. -/
theorem C6_counterexample :
    parseFuel 6 (str " <br>") initialState Color.themeText none 0 =
      some ([⟨[' '], Color.themeText, 0⟩, ⟨['\n'], Color.themeText, 0⟩], 0) ∧
    [' '].all isSpace = true := by
  refine ⟨by decide, by decide⟩

theorem textBeforeNodes_skip {pre : List Char} {st : StyleState} {fg : Color}
    (hall : (decodeHtmlEntities pre).all isSpace = true)
    (hany : (decodeHtmlEntities pre).any (fun c => c == '\n') = true) :
    textBeforeNodes pre st fg = [] := by
  simp only [textBeforeNodes]
  rw [hall, hany]
  simp

theorem textBeforeNodes_emit {pre : List Char} {st : StyleState} {fg : Color}
    (hne : decodeHtmlEntities pre ≠ [])
    (hna : (decodeHtmlEntities pre).all isSpace = false ∨
      (decodeHtmlEntities pre).any (fun c => c == '\n') = false) :
    textBeforeNodes pre st fg =
      [⟨if st.code then decodeHtmlEntities pre else collapseWs (decodeHtmlEntities pre),
        if st.code then Color.codeGreen else fg, getAttributes st⟩] := by
  simp only [textBeforeNodes]
  have hlen : 0 < (decodeHtmlEntities pre).length := List.length_pos.mpr hne
  rcases hna with hna | hna <;>
    · rw [hna]
      simp [hlen]

theorem parse_emits_text_before {s : List Char} {m : TagMatch} {fuel : Nat}
    {st : StyleState} {fg : Color} {lt : Option LType} {ct : Nat}
    {ns : List Run} {c2 : Nat}
    (htm : tagMatch s = some m)
    (hres : parseFuel (fuel + 1) s st fg lt ct = some (ns, c2)) :
    ∃ tail, ns = textBeforeNodes m.pre st fg ++ tail := by
  rw [parseFuel] at hres
  rw [tagMatch_ne_nil htm] at hres
  rw [if_neg (by simp)] at hres
  rw [htm] at hres
  dsimp only at hres
  rw [Option.map_eq_some'] at hres
  obtain ⟨q, _, hq2⟩ := hres
  exact ⟨q.1, by rw [← (Prod.mk.injEq _ _ _ _).mp hq2 |>.1]⟩

/-- C6 (amended): the decoded text segment before a tag is skipped exactly
when it is purely whitespace AND contains a newline; otherwise (when
non-empty) it is emitted as one run, collapsed to single spaces unless the
code flag is set, in which case raw whitespace is preserved; and whatever
the branch, the parser's output for the iteration begins with exactly
these nodes. -/
theorem C6_text_segments :
    (∀ (pre : List Char) (st : StyleState) (fg : Color),
      (decodeHtmlEntities pre).all isSpace = true →
      (decodeHtmlEntities pre).any (fun c => c == '\n') = true →
      textBeforeNodes pre st fg = []) ∧
    (∀ (pre : List Char) (st : StyleState) (fg : Color),
      decodeHtmlEntities pre ≠ [] →
      ((decodeHtmlEntities pre).all isSpace = false ∨
        (decodeHtmlEntities pre).any (fun c => c == '\n') = false) →
      textBeforeNodes pre st fg =
        [⟨if st.code then decodeHtmlEntities pre else collapseWs (decodeHtmlEntities pre),
          if st.code then Color.codeGreen else fg, getAttributes st⟩]) ∧
    (∀ (s : List Char) (m : TagMatch) (fuel : Nat) (st : StyleState) (fg : Color)
        (lt : Option LType) (ct : Nat) (ns : List Run) (c2 : Nat),
      tagMatch s = some m → parseFuel (fuel + 1) s st fg lt ct = some (ns, c2) →
      ∃ tail, ns = textBeforeNodes m.pre st fg ++ tail) :=
  ⟨fun _ _ _ hall hany => textBeforeNodes_skip hall hany,
   fun _ _ _ hne hna => textBeforeNodes_emit hne hna,
   fun _ _ _ _ _ _ _ _ _ htm hres => parse_emits_text_before htm hres⟩

theorem C6_witness :
    textBeforeNodes [' ', '\n'] initialState Color.themeText = [] ∧
    textBeforeNodes [' '] initialState Color.themeText =
      [⟨if initialState.code then decodeHtmlEntities [' ']
          else collapseWs (decodeHtmlEntities [' ']),
        if initialState.code then Color.codeGreen else Color.themeText,
        getAttributes initialState⟩] ∧
    (∃ tail, [⟨[' '], Color.themeText, 0⟩, ⟨['\n'], Color.themeText, 0⟩] =
      textBeforeNodes [' '] initialState Color.themeText ++ tail) :=
  ⟨C6_text_segments.1 [' ', '\n'] initialState Color.themeText (by decide) (by decide),
   C6_text_segments.2.1 [' '] initialState Color.themeText (by decide) (Or.inr (by decide)),
   C6_text_segments.2.2 (str " <br>") ⟨[' '], false, str "br", [], 5⟩ 5 initialState
     Color.themeText none 0 [⟨[' '], Color.themeText, 0⟩, ⟨['\n'], Color.themeText, 0⟩] 0
     (by decide) (by decide)⟩

/-- The six entity escape sequences the decoder handles. -/
def entityEscapes : List (List Char) :=
  [str "&lt;", str "&gt;", str "&amp;", str "&quot;", str "&#39;", str "&nbsp;"]

/-- Does the text contain a raw entity escape? -/
def containsEntity (t : List Char) : Bool :=
  entityEscapes.any (fun e => containsSub t e)

/-- C2 counterexample: runs can contain raw entity escapes.  (1) The
decoder is a single sequential pass, so the doubly-escaped input
`&amp;lt;` decodes to the literal text `&lt;`, which is itself a raw
escape, and is emitted as a run.  (2) The link's parenthesized raw-target
run is taken verbatim from the `href` attribute without decoding:
`<a href="x&amp;y">t</a>` emits the run `(x&amp;y)`. -/
theorem C2_counterexample :
    (parseFuel 9 (str "&amp;lt;") initialState Color.themeText none 0 =
      some ([⟨str "&lt;", Color.themeText, 0⟩], 0) ∧
     containsEntity (str "&lt;") = true) ∧
    (parseFuel 30 (str "<a href=" ++ [Char.ofNat 34] ++ str "x&amp;y" ++
        [Char.ofNat 34] ++ str ">t</a>") initialState Color.themeText none 0 =
      some ([⟨['['], Color.themeMuted, 0⟩, ⟨str "t", Color.themeSecondary, 0⟩,
        ⟨[']'], Color.themeMuted, 0⟩,
        ⟨'(' :: (str "x&amp;y" ++ [')']), Color.themeMuted, 0⟩], 0) ∧
     containsEntity ('(' :: (str "x&amp;y" ++ [')'])) = true) := by
  refine ⟨⟨by decide, by decide⟩, ⟨by decide, by decide⟩⟩

theorem tagMatch_of_no_lt {s : List Char}
    (h : s.all (fun c => c != '<') = true) : tagMatch s = none := by
  have hself : s.takeWhile (fun c => c != '<') = s :=
    List.takeWhile_eq_self_iff.mpr (fun x hx => List.all_eq_true.mp h x hx)
  simp only [tagMatch, hself, List.drop_length]

theorem tagfree_is_decoded_run (s : List Char) (st : StyleState) (fg : Color)
    (lt : Option LType) (ct : Nat) (h : s.all (fun c => c != '<') = true) :
    parseFuel (s.length + 1) s st fg lt ct = some (trailingNodes s st fg, ct) := by
  rw [parseFuel]
  cases hs : s with
  | nil => rfl
  | cons c t =>
    rw [← hs]
    rw [if_neg (by rw [hs]; simp)]
    rw [tagMatch_of_no_lt h]

theorem a_branch_href_verbatim {s : List Char} {m : TagMatch} {ci : Nat}
    {h : List Char} (fuel : Nat) (st : StyleState) (fg : Color)
    (lt : Option LType) (ct : Nat)
    (htm : tagMatch s = some m) (hcl : m.closing = false)
    (hname : lower m.name = str "a")
    (hfmc : findMatchingClose (s.drop m.len) (str "a") = some ci)
    (hhref : extractHref m.attrs = some h) :
    parseFuel (fuel + 1) s st fg lt ct =
      (combine (parseFuel fuel ((s.drop m.len).take ci) st Color.themeSecondary lt ct)
        id
        (fun ns => ⟨['['], Color.themeMuted, 0⟩ :: ns ++
          ⟨[']'], Color.themeMuted, 0⟩ :: [⟨'(' :: h ++ [')'], Color.themeMuted, 0⟩])
        (fun c => parseFuel fuel ((s.drop m.len).drop (ci + ((str "a").length + 3)))
          st fg lt c)).map
        (fun q => (textBeforeNodes m.pre st fg ++ q.1, q.2)) := by
  have hne := tagMatch_ne_nil htm
  rw [parseFuel, hne]
  rw [if_neg (by simp)]
  rw [htm]
  dsimp only
  rw [hname]
  rw [if_neg (by decide), if_neg (by decide)]
  rw [hcl]
  rw [if_neg (by simp)]
  rw [hfmc]
  dsimp only
  have hk : tagKind (str "a") = TagKind.tA := by rfl
  rw [hk]
  dsimp only
  rw [hhref]

/-- C2 (amended): runs built from plain text segments carry exactly the
decoder's output (for tag-free input the whole remainder is emitted as one
decoded run), but the decoder is a single sequential pass (so
doubly-escaped input can still leave a raw escape in a run), and the
link's parenthesized raw-target run is emitted verbatim from the `href`
attribute without decoding (attachment labels are likewise taken verbatim
from attributes). -/
theorem C2_entity_decoding :
    (∀ (s : List Char) (st : StyleState) (fg : Color) (lt : Option LType) (ct : Nat),
      s.all (fun c => c != '<') = true →
      parseFuel (s.length + 1) s st fg lt ct = some (trailingNodes s st fg, ct)) ∧
    (∀ (s : List Char) (m : TagMatch) (ci : Nat) (h : List Char) (fuel : Nat)
        (st : StyleState) (fg : Color) (lt : Option LType) (ct : Nat),
      tagMatch s = some m → m.closing = false → lower m.name = str "a" →
      findMatchingClose (s.drop m.len) (str "a") = some ci →
      extractHref m.attrs = some h →
      parseFuel (fuel + 1) s st fg lt ct =
        (combine (parseFuel fuel ((s.drop m.len).take ci) st Color.themeSecondary lt ct)
          id
          (fun ns => ⟨['['], Color.themeMuted, 0⟩ :: ns ++
            ⟨[']'], Color.themeMuted, 0⟩ :: [⟨'(' :: h ++ [')'], Color.themeMuted, 0⟩])
          (fun c => parseFuel fuel ((s.drop m.len).drop (ci + ((str "a").length + 3)))
            st fg lt c)).map
          (fun q => (textBeforeNodes m.pre st fg ++ q.1, q.2))) :=
  ⟨tagfree_is_decoded_run,
   fun _ _ _ _ fuel st fg lt ct htm hcl hname hfmc hhref =>
     a_branch_href_verbatim fuel st fg lt ct htm hcl hname hfmc hhref⟩

theorem C2_witness :
    parseFuel ((str "a&amp;b").length + 1) (str "a&amp;b") initialState
      Color.themeText none 0 =
      some (trailingNodes (str "a&amp;b") initialState Color.themeText, 0) ∧
    parseFuel 21 (str "<a href=" ++ [Char.ofNat 39] ++ str "u" ++ [Char.ofNat 39]
        ++ str ">t</a>") initialState Color.themeText none 0 =
      (combine (parseFuel 20 (((str "<a href=" ++ [Char.ofNat 39] ++ str "u" ++
            [Char.ofNat 39] ++ str ">t</a>").drop 12).take 1) initialState
          Color.themeSecondary none 0)
        id
        (fun ns => ⟨['['], Color.themeMuted, 0⟩ :: ns ++
          ⟨[']'], Color.themeMuted, 0⟩ :: [⟨'(' :: str "u" ++ [')'], Color.themeMuted, 0⟩])
        (fun c => parseFuel 20 (((str "<a href=" ++ [Char.ofNat 39] ++ str "u" ++
            [Char.ofNat 39] ++ str ">t</a>").drop 12).drop (1 + ((str "a").length + 3)))
          initialState Color.themeText none c)).map
        (fun q => (textBeforeNodes [] initialState Color.themeText ++ q.1, q.2)) :=
  ⟨C2_entity_decoding.1 (str "a&amp;b") initialState Color.themeText none 0 (by decide),
   C2_entity_decoding.2 (str "<a href=" ++ [Char.ofNat 39] ++ str "u" ++ [Char.ofNat 39]
       ++ str ">t</a>")
     ⟨[], false, str "a", str " href=" ++ [Char.ofNat 39] ++ str "u" ++ [Char.ofNat 39], 12⟩
     1 (str "u") 20 initialState Color.themeText none 0
     (by decide) rfl (by decide) (by decide) (by decide)⟩

theorem absolutize_not_rel (u : List Char) :
    (str "/").isPrefixOf (absolutize u) = false := by
  unfold absolutize
  split
  next hp =>
    show List.isPrefixOf ('/' :: []) ('h' :: (str "ttps://app.fizzy.do" ++ u)) = false
    simp only [List.isPrefixOf, Bool.and_true]
    decide
  next hp =>
    simp only [Bool.not_eq_true] at hp
    exact hp

theorem mem_attachmentStep {html : List Char} {acc : List ImageInfo}
    {m : Nat × List Nat} {i : ImageInfo} (h : i ∈ attachmentStep html acc m) :
    i ∈ acc ∨ ∃ raw, i.url = absolutize raw := by
  unfold attachmentStep at h
  dsimp only at h
  split at h
  · exact Or.inl h
  next url hurl =>
    rw [List.mem_append] at h
    rcases h with h | h
    · exact Or.inl h
    · rw [List.mem_singleton] at h
      exact Or.inr ⟨url, by rw [h]⟩

theorem mem_imgStep {html : List Char} {acc : List ImageInfo}
    {m : Nat × List Nat} {i : ImageInfo} (h : i ∈ imgStep html acc m) :
    i ∈ acc ∨ ∃ raw, i.url = absolutize raw := by
  unfold imgStep at h
  dsimp only at h
  split at h
  · rw [List.mem_append] at h
    rcases h with h | h
    · exact Or.inl h
    · rw [List.mem_singleton] at h
      exact Or.inr ⟨_, by rw [h]⟩
  · exact Or.inl h

theorem foldl_url_not_rel {α : Type} {step : List ImageInfo → α → List ImageInfo}
    (hstep : ∀ acc m i, i ∈ step acc m → i ∈ acc ∨ ∃ raw, i.url = absolutize raw) :
    ∀ (ms : List α) (acc : List ImageInfo),
      (∀ i ∈ acc, (str "/").isPrefixOf i.url = false) →
      ∀ i ∈ ms.foldl step acc, (str "/").isPrefixOf i.url = false := by
  intro ms
  induction ms with
  | nil => intro acc hacc i hi; exact hacc i hi
  | cons m ms ih =>
    intro acc hacc i hi
    refine ih (step acc m) ?_ i hi
    intro j hj
    rcases hstep acc m j hj with hj2 | ⟨raw, hraw⟩
    · exact hacc j hj2
    · rw [hraw]
      exact absolutize_not_rel raw

/-- C7: the URL rewriting rule.  (1) The rule itself: a URL beginning with
"/" is prefixed with the fixed origin "https://app.fizzy.do", any other
URL is passed through unchanged.  (2) Every descriptor the extractor
emits has been through the rule, so no extracted URL begins with "/".
(3) Concretely: a rich attachment with url="/blobs/42" and a plain image
with src="/blobs/42" both yield the absolute URL
"https://app.fizzy.do/blobs/42" in the extracted media descriptor, and a
plain image whose src does not begin with "/" is passed through
unchanged.  (In the rendered run stream an attachment's rewritten URL
appears in no run — there is no rendered link suffix for attachments — so
the "(if any)" part of the claim is vacuous there.) -/
theorem C7_url_rewriting :
    (∀ u, ((str "/").isPrefixOf u = true →
        absolutize u = str "https://app.fizzy.do" ++ u) ∧
      ((str "/").isPrefixOf u = false → absolutize u = u)) ∧
    (∀ html i, i ∈ extractImageUrls html → (str "/").isPrefixOf i.url = false) ∧
    extractImageUrls (str "<action-text-attachment content-type=" ++ [Char.ofNat 34] ++
        str "image/png" ++ [Char.ofNat 34] ++ str " url=" ++ [Char.ofNat 34] ++
        str "/blobs/42" ++ [Char.ofNat 34] ++ str ">") =
      [⟨str "https://app.fizzy.do/blobs/42", str "image", none, none⟩] ∧
    extractImageUrls (str "<img src=" ++ [Char.ofNat 34] ++ str "/blobs/42" ++
        [Char.ofNat 34] ++ str ">") =
      [⟨str "https://app.fizzy.do/blobs/42", str "image", none, none⟩] ∧
    extractImageUrls (str "<img src=" ++ [Char.ofNat 34] ++ str "http://x/y.png" ++
        [Char.ofNat 34] ++ str " alt=" ++ [Char.ofNat 34] ++ str "pic" ++
        [Char.ofNat 34] ++ str ">") =
      [⟨str "http://x/y.png", str "pic", none, none⟩] := by
  refine ⟨?_, ?_, by decide, by decide, by decide⟩
  · intro u
    constructor
    · intro h
      unfold absolutize
      rw [if_pos h]
    · intro h
      unfold absolutize
      rw [if_neg (by rw [h]; simp)]
  · intro html i hi
    unfold extractImageUrls at hi
    refine foldl_url_not_rel (fun acc m j hj => mem_imgStep hj) _ _ ?_ i hi
    exact foldl_url_not_rel (fun acc m j hj => mem_attachmentStep hj) _ _
      (fun j hj => absurd hj (List.not_mem_nil j))

theorem C7_witness :
    absolutize (str "/blobs/42") = str "https://app.fizzy.do" ++ str "/blobs/42" ∧
    absolutize (str "http://x") = str "http://x" ∧
    (str "/").isPrefixOf
      (ImageInfo.url ⟨str "https://app.fizzy.do/blobs/42", str "image", none, none⟩) =
      false :=
  ⟨(C7_url_rewriting.1 (str "/blobs/42")).1 (by decide),
   (C7_url_rewriting.1 (str "http://x")).2 (by decide),
   C7_url_rewriting.2.1 (str "<img src=" ++ [Char.ofNat 34] ++ str "/blobs/42" ++
       [Char.ofNat 34] ++ str ">")
     ⟨str "https://app.fizzy.do/blobs/42", str "image", none, none⟩
     (by rw [C7_url_rewriting.2.2.2.1]; exact List.mem_singleton.mpr rfl)⟩

/-- C10 counterexample: the claim says a plain image tag is skipped only
when a previously extracted RICH-ATTACHMENT descriptor's URL contains its
relative src.  On `<img src="/z"><img src="/z">` there are no rich
attachments at all (the attachment scan finds no match), there are two
image-tag matches, yet only one descriptor is emitted: the second tag is
skipped against the descriptor pushed for the FIRST PLAIN IMAGE. -/
theorem C10_counterexample :
    scanAll attachmentToks (str "<img src=" ++ [Char.ofNat 34] ++ str "/z" ++
        [Char.ofNat 34] ++ str "><img src=" ++ [Char.ofNat 34] ++ str "/z" ++
        [Char.ofNat 34] ++ str ">") = [] ∧
    (scanAll imgToks (str "<img src=" ++ [Char.ofNat 34] ++ str "/z" ++
        [Char.ofNat 34] ++ str "><img src=" ++ [Char.ofNat 34] ++ str "/z" ++
        [Char.ofNat 34] ++ str ">")).length = 2 ∧
    extractImageUrls (str "<img src=" ++ [Char.ofNat 34] ++ str "/z" ++
        [Char.ofNat 34] ++ str "><img src=" ++ [Char.ofNat 34] ++ str "/z" ++
        [Char.ofNat 34] ++ str ">") =
      [⟨str "https://app.fizzy.do/z", str "image", none, none⟩] := by
  refine ⟨by decide, by decide, by decide⟩

/-- C10 (amended): in the img loop, a plain image tag is skipped exactly
when its src begins with "/" and some PREVIOUSLY ACCUMULATED descriptor —
whether it came from a rich attachment or from an earlier plain image
tag — has a URL containing src-without-its-leading-slash as a substring
(substring containment, not equality); a plain image tag whose src does
not begin with "/" is never skipped. -/
theorem C10_dedup_condition :
    (∀ (html : List Char) (acc : List ImageInfo) (m : Nat × List Nat),
      (str "/").isPrefixOf (capAt html m.1 m.2 4) = false →
      imgStep html acc m = acc ++
        [⟨absolutize (capAt html m.1 m.2 4),
          (firstAttr (str "alt=") ((html.drop m.1).take (m.2.foldl (· + ·) 0))).getD
            (str "image"),
          (firstNumAttr (str "width=")
            ((html.drop m.1).take (m.2.foldl (· + ·) 0))).map natOfDigits,
          (firstNumAttr (str "height=")
            ((html.drop m.1).take (m.2.foldl (· + ·) 0))).map natOfDigits⟩]) ∧
    (∀ (html : List Char) (acc : List ImageInfo) (m : Nat × List Nat),
      (str "/").isPrefixOf (capAt html m.1 m.2 4) = true →
      (imgStep html acc m = acc ↔
        acc.any (fun img => containsSub img.url ((capAt html m.1 m.2 4).drop 1)) = true)) := by
  constructor
  · intro html acc m h
    unfold imgStep
    dsimp only
    rw [h]
    simp
  · intro html acc m h
    unfold imgStep
    dsimp only
    rw [h]
    cases hany : acc.any (fun img => containsSub img.url ((capAt html m.1 m.2 4).drop 1)) with
    | true => simp
    | false => simp

theorem C10_witness :
    imgStep (str "<img src=" ++ [Char.ofNat 34] ++ str "x" ++ [Char.ofNat 34] ++ str ">")
        [] (0, [4, 1, 4, 1, 1, 1, 0, 1]) =
      [] ++
        [⟨absolutize (capAt (str "<img src=" ++ [Char.ofNat 34] ++ str "x" ++
              [Char.ofNat 34] ++ str ">") 0 [4, 1, 4, 1, 1, 1, 0, 1] 4),
          (firstAttr (str "alt=") (((str "<img src=" ++ [Char.ofNat 34] ++ str "x" ++
              [Char.ofNat 34] ++ str ">").drop 0).take
              ([4, 1, 4, 1, 1, 1, 0, 1].foldl (· + ·) 0))).getD (str "image"),
          (firstNumAttr (str "width=") (((str "<img src=" ++ [Char.ofNat 34] ++ str "x" ++
              [Char.ofNat 34] ++ str ">").drop 0).take
              ([4, 1, 4, 1, 1, 1, 0, 1].foldl (· + ·) 0))).map natOfDigits,
          (firstNumAttr (str "height=") (((str "<img src=" ++ [Char.ofNat 34] ++ str "x" ++
              [Char.ofNat 34] ++ str ">").drop 0).take
              ([4, 1, 4, 1, 1, 1, 0, 1].foldl (· + ·) 0))).map natOfDigits⟩] ∧
    (imgStep (str "<img src=" ++ [Char.ofNat 34] ++ str "/z" ++ [Char.ofNat 34] ++ str ">")
        [⟨str "https://app.fizzy.do/z", str "image", none, none⟩]
        (0, [4, 1, 4, 1, 2, 1, 0, 1]) =
      [⟨str "https://app.fizzy.do/z", str "image", none, none⟩] ↔
      ([⟨str "https://app.fizzy.do/z", str "image", none, none⟩] : List ImageInfo).any
        (fun img => containsSub img.url
          ((capAt (str "<img src=" ++ [Char.ofNat 34] ++ str "/z" ++ [Char.ofNat 34] ++
            str ">") 0 [4, 1, 4, 1, 2, 1, 0, 1] 4).drop 1)) = true) :=
  ⟨C10_dedup_condition.1 (str "<img src=" ++ [Char.ofNat 34] ++ str "x" ++ [Char.ofNat 34]
      ++ str ">") [] (0, [4, 1, 4, 1, 1, 1, 0, 1]) (by decide),
   C10_dedup_condition.2 (str "<img src=" ++ [Char.ofNat 34] ++ str "/z" ++ [Char.ofNat 34]
      ++ str ">") [⟨str "https://app.fizzy.do/z", str "image", none, none⟩]
     (0, [4, 1, 4, 1, 2, 1, 0, 1]) (by decide)⟩

theorem getFizzyColor_canonical (bg : List Char) (k : Option (List Char)) :
    getFizzyColor bg k =
      getFizzyColor (if isLightBackground bg then str "#ffffff" else str "#000000") k := by
  cases hl : isLightBackground bg with
  | true =>
    have h2 : isLightBackground (str "#ffffff") = true := by decide
    simp [getFizzyColor, hl, h2]
  | false =>
    have h2 : isLightBackground (str "#000000") = false := by decide
    simp [getFizzyColor, hl, h2]

theorem getFizzyColor_unknown_key (bg : List Char) (k : List Char)
    (hL : lookupTbl FIZZY_COLORS_LIGHT k = none)
    (hD : lookupTbl FIZZY_COLORS_DARK k = none)
    (hP : protoKeys.contains k = false) :
    getFizzyColor bg (some k) = getFizzyColor bg none := by
  have hP2 : ¬ k ∈ protoKeys := by simpa using hP
  cases hl : isLightBackground bg with
  | true => simp [getFizzyColor, hl, hL, hP2]
  | false => simp [getFizzyColor, hl, hD, hP2]

theorem getFizzyColor_none_default (bg : List Char) :
    getFizzyColor bg none = getFizzyColor bg (some FIZZY_DEFAULT_VAR) := by
  cases hl : isLightBackground bg with
  | true =>
    have h2 : lookupTbl FIZZY_COLORS_LIGHT FIZZY_DEFAULT_VAR = some (str "#2b7dde") := by
      decide
    simp [getFizzyColor, hl, h2]
  | false =>
    have h2 : lookupTbl FIZZY_COLORS_DARK FIZZY_DEFAULT_VAR = some (str "#5a9eed") := by
      decide
    simp [getFizzyColor, hl, h2]

theorem getFizzyColor_proto_key (bg : List Char) (k : List Char)
    (hL : lookupTbl FIZZY_COLORS_LIGHT k = none)
    (hD : lookupTbl FIZZY_COLORS_DARK k = none)
    (hP : protoKeys.contains k = true) :
    getFizzyColor bg (some k) = JsValue.inherited k := by
  have hP2 : k ∈ protoKeys := by simpa using hP
  cases hl : isLightBackground bg with
  | true => simp [getFizzyColor, hl, hL, hP2]
  | false => simp [getFizzyColor, hl, hD, hP2]

/-- C8 counterexample: two divergences from the claim.  (1) The source
computes the luminance test in IEEE doubles: for background `#da3af8`
(r=218, g=58, b=248) the exact luminance `(299r+587g+114b)/255000` is
exactly `1/2` — NOT strictly greater than 0.5 — yet the floating-point
computation rounds just above `1/2`, so the program selects the
light-mode sub-table (resolving an unknown key to the light default
`#2b7dde`, where the claim's exact-threshold reading demands the dark
table's `#5a9eed`).  (2) For a key inherited from `Object.prototype`
such as `"toString"`, absent from both tables, the JS property access is
not nullish, so `??` never falls back: the lookup returns the inherited
function instead of the designated default key's color. -/
theorem C8_counterexample :
    (2 * luminanceNum (hexToRgb (str "#da3af8")) = 255000 ∧
     isLightBackground (str "#da3af8") = true ∧
     getFizzyColor (str "#da3af8") (some (str "nope")) =
       JsValue.color (str "#2b7dde")) ∧
    (lookupTbl FIZZY_COLORS_LIGHT (str "toString") = none ∧
     lookupTbl FIZZY_COLORS_DARK (str "toString") = none ∧
     getFizzyColor (str "#000000") (some (str "toString")) =
       JsValue.inherited (str "toString") ∧
     getFizzyColor (str "#000000") (some FIZZY_DEFAULT_VAR) =
       JsValue.color (str "#5a9eed")) := by
  refine ⟨⟨by decide, by decide, by decide⟩, by decide, by decide, by decide, by decide⟩

/-- C8 (amended): the category color lookup (1) depends on the background
only through the light/dark test — every background with the same
`isLightBackground` value resolves every key identically, so flipping the
(floating-point-computed) light/dark decision flips the selected
sub-table for every lookup; the test is the IEEE-double evaluation of
`luminance > 0.5`, which can differ from the exact-arithmetic threshold
at rounding boundaries such as `#da3af8`; (2) a key absent from both
tables that is not a property of `Object.prototype` resolves exactly as
an undefined key, (3) which resolves exactly as the designated default
key; (4) a key absent from both tables that IS an inherited
`Object.prototype` property resolves to the inherited non-color value,
not to the default; and (5) concretely, white selects the light table
and black the dark table, both for unknown keys (default colors) and for
known keys (their per-table entries). -/
theorem C8_category_colors :
    (∀ (bg : List Char) (k : Option (List Char)),
      getFizzyColor bg k =
        getFizzyColor (if isLightBackground bg then str "#ffffff" else str "#000000") k) ∧
    (∀ (bg k : List Char), lookupTbl FIZZY_COLORS_LIGHT k = none →
      lookupTbl FIZZY_COLORS_DARK k = none → protoKeys.contains k = false →
      getFizzyColor bg (some k) = getFizzyColor bg none) ∧
    (∀ bg : List Char, getFizzyColor bg none = getFizzyColor bg (some FIZZY_DEFAULT_VAR)) ∧
    (∀ (bg k : List Char), lookupTbl FIZZY_COLORS_LIGHT k = none →
      lookupTbl FIZZY_COLORS_DARK k = none → protoKeys.contains k = true →
      getFizzyColor bg (some k) = JsValue.inherited k) ∧
    (isLightBackground (str "#ffffff") = true ∧
     isLightBackground (str "#000000") = false ∧
     getFizzyColor (str "#ffffff") (some (str "nope")) = JsValue.color (str "#2b7dde") ∧
     getFizzyColor (str "#000000") (some (str "nope")) = JsValue.color (str "#5a9eed") ∧
     getFizzyColor (str "#ffffff") (some (str "var(--color-card-3)")) =
       JsValue.color (str "#c9a000") ∧
     getFizzyColor (str "#000000") (some (str "var(--color-card-3)")) =
       JsValue.color (str "#a88900")) :=
  ⟨getFizzyColor_canonical, getFizzyColor_unknown_key, getFizzyColor_none_default,
   getFizzyColor_proto_key,
   by decide, by decide, by decide, by decide, by decide, by decide⟩

theorem C8_witness :
    getFizzyColor (str "#123456") (some (str "zzz")) =
      getFizzyColor (if isLightBackground (str "#123456") then str "#ffffff"
        else str "#000000") (some (str "zzz")) ∧
    getFizzyColor (str "#123456") (some (str "zzz")) =
      getFizzyColor (str "#123456") none ∧
    getFizzyColor (str "#123456") none =
      getFizzyColor (str "#123456") (some FIZZY_DEFAULT_VAR) ∧
    getFizzyColor (str "#123456") (some (str "valueOf")) =
      JsValue.inherited (str "valueOf") :=
  ⟨C8_category_colors.1 (str "#123456") (some (str "zzz")),
   C8_category_colors.2.1 (str "#123456") (str "zzz") (by decide) (by decide) (by decide),
   C8_category_colors.2.2.1 (str "#123456"),
   C8_category_colors.2.2.2.1 (str "#123456") (str "valueOf") (by decide) (by decide)
     (by decide)⟩

/-- Well-formedness per the `hexToRgb` regex: an optional `#` followed by
exactly six hex digits (either case). -/
def wellFormedHex (s : List Char) : Bool :=
  decide ((stripHash s).length = 6) && (stripHash s).all isHexDigit

theorem hexDigit_ranges {d : Char} (h : isHexDigit d = true) :
    (48 ≤ d.toNat ∧ d.toNat ≤ 57) ∨ (97 ≤ d.toNat ∧ d.toNat ≤ 102) ∨
      (65 ≤ d.toNat ∧ d.toNat ≤ 70) := by
  simp only [isHexDigit] at h
  exact of_decide_eq_true h

theorem hexVal_lt {d : Char} (h : isHexDigit d = true) : hexVal d < 16 := by
  have hr := hexDigit_ranges h
  unfold hexVal
  rcases hr with ⟨h1, h2⟩ | ⟨h1, h2⟩ | ⟨h1, h2⟩
  · rw [if_pos (by omega)]
    omega
  · rw [if_neg (by omega), if_pos (by omega)]
    omega
  · rw [if_neg (by omega), if_neg (by omega)]
    omega

theorem hexChar_toLower {d : Char} (h : isHexDigit d = true) :
    hexChar (hexVal d) = toLowerChar d := by
  have hr := hexDigit_ranges h
  rcases hr with ⟨h1, h2⟩ | ⟨h1, h2⟩ | ⟨h1, h2⟩
  · have hv : hexVal d = d.toNat - 48 := by
      unfold hexVal
      rw [if_pos (by omega)]
    have hc : hexChar (hexVal d) = Char.ofNat (48 + (d.toNat - 48)) := by
      unfold hexChar
      rw [hv, if_pos (by omega)]
    have ht : toLowerChar d = d := by
      unfold toLowerChar
      rw [if_neg (by omega)]
    rw [hc, ht, show 48 + (d.toNat - 48) = d.toNat by omega, Char.ofNat_toNat]
  · have hv : hexVal d = d.toNat - 87 := by
      unfold hexVal
      rw [if_neg (by omega), if_pos (by omega)]
    have hc : hexChar (hexVal d) = Char.ofNat (87 + (d.toNat - 87)) := by
      unfold hexChar
      rw [hv, if_neg (by omega)]
    have ht : toLowerChar d = d := by
      unfold toLowerChar
      rw [if_neg (by omega)]
    rw [hc, ht, show 87 + (d.toNat - 87) = d.toNat by omega, Char.ofNat_toNat]
  · have hv : hexVal d = d.toNat - 55 := by
      unfold hexVal
      rw [if_neg (by omega), if_neg (by omega)]
    have hc : hexChar (hexVal d) = Char.ofNat (87 + (d.toNat - 55)) := by
      unfold hexChar
      rw [hv, if_neg (by omega)]
    have ht : toLowerChar d = Char.ofNat (d.toNat + 32) := by
      unfold toLowerChar
      rw [if_pos (by omega)]
    rw [hc, ht]
    congr 1
    omega

theorem toHex2_pair {a b : Char} (ha : isHexDigit a = true) (hb : isHexDigit b = true) :
    toHex2 (16 * hexVal a + hexVal b) = [toLowerChar a, toLowerChar b] := by
  unfold toHex2
  have hbl := hexVal_lt hb
  have h1 : (16 * hexVal a + hexVal b) / 16 = hexVal a := by omega
  have h2 : (16 * hexVal a + hexVal b) % 16 = hexVal b := by omega
  rw [h1, h2, hexChar_toLower ha, hexChar_toLower hb]

theorem hexRoundTrip {s : List Char} (h : wellFormedHex s = true) :
    rgbToHex (hexToRgb s).r (hexToRgb s).g (hexToRgb s).b =
      '#' :: lower (stripHash s) := by
  simp only [wellFormedHex, Bool.and_eq_true, decide_eq_true_eq] at h
  obtain ⟨hlen, hall⟩ := h
  rcases hbody : stripHash s with _ | ⟨a, _ | ⟨b, _ | ⟨c, _ | ⟨d, _ | ⟨e, _ | ⟨f, _ | ⟨g, t⟩⟩⟩⟩⟩⟩⟩ <;>
    rw [hbody] at hlen <;> simp at hlen
  rw [hbody] at hall
  simp only [List.all_cons, List.all_nil, Bool.and_eq_true, Bool.and_true] at hall
  obtain ⟨ha, hb2, hc2, hd2, he2, hf2⟩ := hall
  unfold hexToRgb
  rw [hbody]
  dsimp only
  rw [if_pos (by rw [ha, hb2, hc2, hd2, he2, hf2]; rfl)]
  unfold rgbToHex
  dsimp only
  rw [toHex2_pair ha hb2, toHex2_pair hc2 hd2, toHex2_pair he2 hf2]
  simp [lower]

theorem hexToRgb_malformed {s : List Char} (h : wellFormedHex s = false) :
    hexToRgb s = ⟨0, 0, 0⟩ := by
  simp only [wellFormedHex] at h
  unfold hexToRgb
  rcases hbody : stripHash s with _ | ⟨a, _ | ⟨b, _ | ⟨c, _ | ⟨d, _ | ⟨e, _ | ⟨f, _ | ⟨g, t⟩⟩⟩⟩⟩⟩⟩ <;>
      try rfl
  rw [hbody] at h
  simp only [List.length_cons, List.length_nil, List.all_cons, List.all_nil] at h
  dsimp only
  by_cases hcond : (isHexDigit a && isHexDigit b && isHexDigit c && isHexDigit d &&
      isHexDigit e && isHexDigit f) = true
  · exfalso
    simp only [Bool.and_eq_true] at hcond
    obtain ⟨⟨⟨⟨⟨ha, hb2⟩, hc2⟩, hd2⟩, he2⟩, hf2⟩ := hcond
    rw [ha, hb2, hc2, hd2, he2, hf2] at h
    simp at h
  · rw [if_neg hcond]

/-- C9: for every well-formed 6-digit hex color string (case-insensitive,
with or without a leading `#`), `hexToRgb` followed by `rgbToHex`
round-trips exactly to the canonical lowercase `#rrggbb` form of the same
color; for every malformed input, `hexToRgb` yields black. -/
theorem C9_hex_round_trip :
    (∀ s : List Char, wellFormedHex s = true →
      rgbToHex (hexToRgb s).r (hexToRgb s).g (hexToRgb s).b =
        '#' :: lower (stripHash s)) ∧
    (∀ s : List Char, wellFormedHex s = false → hexToRgb s = ⟨0, 0, 0⟩) :=
  ⟨fun _ h => hexRoundTrip h, fun _ h => hexToRgb_malformed h⟩

theorem C9_witness :
    rgbToHex (hexToRgb (str "#AbCdEf")).r (hexToRgb (str "#AbCdEf")).g
        (hexToRgb (str "#AbCdEf")).b =
      '#' :: lower (stripHash (str "#AbCdEf")) ∧
    rgbToHex (hexToRgb (str "ABCDEF")).r (hexToRgb (str "ABCDEF")).g
        (hexToRgb (str "ABCDEF")).b =
      '#' :: lower (stripHash (str "ABCDEF")) ∧
    hexToRgb (str "#12345") = ⟨0, 0, 0⟩ ∧
    hexToRgb (str "not-a-color") = ⟨0, 0, 0⟩ :=
  ⟨C9_hex_round_trip.1 (str "#AbCdEf") (by decide),
   C9_hex_round_trip.1 (str "ABCDEF") (by decide),
   C9_hex_round_trip.2 (str "#12345") (by decide),
   C9_hex_round_trip.2 (str "not-a-color") (by decide)⟩

end Hatchet
